import Mathlib

/-!
Shallow embedding of the spanning-tree MCMC sampler of `models.py`
(pymc-networkx-bdst repository).

The repository drives a Metropolis chain over spanning trees of a fixed
base graph.  `networkx` graphs are modelled as a node list together with
an edge list of (unordered) pairs of naturals; all `networkx` operations
used by the code (`has_edge`, `add_edge`, `remove_edge`, `degree`,
`shortest_path`, `shortest_path_length`, `minimum_spanning_tree`) are
given executable models below.  Random draws made through Python's
`random` module are passed in explicitly (an index stream for the
edge-resampling loop of `propose`, an index for `randrange`), so a run
of the sampler is a pure function of the tree and the draws.
-/

namespace STModel

/-- A `networkx` graph: a list of nodes and a list of undirected edges.
An edge `(u, v)` stands for the unordered pair `{u, v}`; every query
below treats the two orientations alike, as `networkx` does. -/
structure Graph where
  nodes : List ℕ
  edges : List (ℕ × ℕ)
deriving Repr, DecidableEq

/-- Undirected match of two edge pairs (same unordered pair of ends). -/
def uMatch (e f : ℕ × ℕ) : Bool :=
  (e.1 = f.1 && e.2 = f.2) || (e.1 = f.2 && e.2 = f.1)

/-- `networkx` `G.has_edge(u, v)`: membership of the unordered pair. -/
def hasEdgeL (E : List (ℕ × ℕ)) (u v : ℕ) : Bool :=
  E.any (fun f => uMatch (u, v) f)

def Graph.hasEdge (g : Graph) (u v : ℕ) : Bool :=
  hasEdgeL g.edges u v

/-- Number of occurrences of the unordered pair `e` in an edge list. -/
def countU (E : List (ℕ × ℕ)) (e : ℕ × ℕ) : ℕ :=
  E.countP (fun f => uMatch e f)

/-- Each unordered pair occurs at most once (a `networkx` graph stores
its adjacency as a dict, so an edge list extracted from one is free of
undirected duplicates). -/
def NodupU (E : List (ℕ × ℕ)) : Prop :=
  List.Pairwise (fun e f => uMatch e f = false) E

/-- Append a node if it is not present (`networkx` `add_node` effect of
`add_edge` on a missing endpoint). -/
def insertNode (ns : List ℕ) (x : ℕ) : List ℕ :=
  if x ∈ ns then ns else ns ++ [x]

/-- `networkx` `G.add_edge(u, v)`: if the unordered edge is already
present only its data dict is touched (no structural change); otherwise
the edge is added, together with any missing endpoint. -/
def Graph.addEdge (g : Graph) (u v : ℕ) : Graph :=
  if g.hasEdge u v then g
  else { nodes := insertNode (insertNode g.nodes u) v, edges := g.edges ++ [(u, v)] }

/-- Drop every occurrence of the unordered edge `(u, v)`. -/
def removeEdgeL (E : List (ℕ × ℕ)) (u v : ℕ) : List (ℕ × ℕ) :=
  E.filter (fun f => !uMatch (u, v) f)

/-- `networkx` `G.remove_edge(u, v)`: removes the unordered edge, and
raises (`none`) when the edge is absent. -/
def Graph.removeEdge (g : Graph) (u v : ℕ) : Option Graph :=
  if g.hasEdge u v then some { g with edges := removeEdgeL g.edges u v }
  else none

/-- `networkx` degree of `v`: each incident edge counts once per
endpoint slot (so a self-loop counts twice, as in `networkx`). -/
def degree (g : Graph) (v : ℕ) : ℕ :=
  g.edges.countP (fun e => e.1 = v) + g.edges.countP (fun e => e.2 = v)

/-- Neighbours of `u` in an edge list (with multiplicity). -/
def neighbors (E : List (ℕ × ℕ)) (u : ℕ) : List ℕ :=
  E.filterMap (fun e => if e.1 = u then some e.2 else if e.2 = u then some e.1 else none)

/-- Adjacency as a proposition: the unordered pair is in the list. -/
def Adj (E : List (ℕ × ℕ)) (x y : ℕ) : Prop :=
  (x, y) ∈ E ∨ (y, x) ∈ E

/-- Reachability: the reflexive-transitive closure of adjacency. -/
def Reach (E : List (ℕ × ℕ)) : ℕ → ℕ → Prop :=
  Relation.ReflTransGen (Adj E)

/-- The graph is connected: all pairs of its nodes are joined. -/
def Connected (g : Graph) : Prop :=
  ∀ x ∈ g.nodes, ∀ y ∈ g.nodes, Reach g.edges x y

/-- Acyclicity, stated as in `Mathlib.Combinatorics.SimpleGraph.Acyclic`
(`isAcyclic_iff_forall_edge_isBridge`): every edge is a bridge, i.e.
removing it disconnects its two ends.  On lists without undirected
duplicates this is the usual absence of cycles; note that a self-loop
`(a, a)` is never a bridge (its ends stay joined by reflexivity), so a
forest in this sense has no self-loops either. -/
def IsForest (E : List (ℕ × ℕ)) : Prop :=
  ∀ e ∈ E, ¬ Reach (removeEdgeL E e.1 e.2) e.1 e.2

/-- Well-formedness extracted from a `networkx` graph: every edge
endpoint is a node. -/
def WF (g : Graph) : Prop :=
  ∀ e ∈ g.edges, e.1 ∈ g.nodes ∧ e.2 ∈ g.nodes

/-!  Model of `nx.shortest_path(T, u, v)`.

The sampler only ever asks for paths inside the current spanning tree,
where the simple path between two nodes is unique and is therefore the
shortest path whatever search order `networkx` uses.  The model is a
depth-first search for a simple path; `fuel` bounds the recursion depth
(the callers pass `|nodes| + 1`, enough for any simple path). -/

def findPath (E : List (ℕ × ℕ)) : ℕ → List ℕ → ℕ → ℕ → Option (List ℕ)
  | 0, _, _, _ => none
  | f + 1, avoid, u, v =>
    if u = v then some [u]
    else
      (neighbors E u).findSome? fun w =>
        if w ∈ u :: avoid then none
        else (findPath E f (u :: avoid) w v).map (u :: ·)

/-- One expansion step of a reachable set: add every neighbour of a
member, keeping the list free of duplicates. -/
def addNew (S : List ℕ) (xs : List ℕ) : List ℕ :=
  xs.foldl (fun acc x => if x ∈ acc then acc else acc ++ [x]) S

def expandOnce (E : List (ℕ × ℕ)) (S : List ℕ) : List ℕ :=
  addNew S (S.flatMap (neighbors E))

/-- Iterate expansion until a fixpoint (detected by the length staying
put) or until the fuel runs out.  With fuel beyond the number of
distinct vertices this computes exactly the set reachable from `S`. -/
def reachClose (E : List (ℕ × ℕ)) (S : List ℕ) : ℕ → List ℕ
  | 0 => S
  | f + 1 =>
    let S' := expandOnce E S
    if S'.length = S.length then S else reachClose E S' f

/-- All endpoints occurring in an edge list. -/
def endpoints (E : List (ℕ × ℕ)) : List ℕ :=
  E.flatMap (fun e => [e.1, e.2])

/-- Fuel that always suffices for `reachClose` to reach its fixpoint. -/
def reachFuel (E : List (ℕ × ℕ)) (x : ℕ) : ℕ :=
  ((x :: endpoints E).dedup).length + 1

/-- The set of vertices reachable from `x` (model of the key set of
`nx.shortest_path_length(G, x)`, and decider for `Reach`). -/
def reachList (E : List (ℕ × ℕ)) (x : ℕ) : List ℕ :=
  reachClose E [x] (reachFuel E x)

/-- Decidable reachability test. -/
def reachb (E : List (ℕ × ℕ)) (x y : ℕ) : Bool :=
  y ∈ reachList E x

/-- Expansion iterated exactly `k` times: the vertices at graph
distance at most `k` from `S`. -/
def iterExpand (E : List (ℕ × ℕ)) (S : List ℕ) : ℕ → List ℕ
  | 0 => S
  | k + 1 => iterExpand E (expandOnce E S) k

/-- A spanning tree of a base graph, following §3 of the design
(data model of the Spanning Tree): same node set as the base graph,
edges drawn from the base graph's edges, exactly `|nodes| - 1` of
them, connected and acyclic. -/
def IsSpanningTree (base T : Graph) : Prop :=
  T.nodes = base.nodes ∧
  (∀ e ∈ T.edges, hasEdgeL base.edges e.1 e.2 = true) ∧
  NodupU T.edges ∧
  Connected T ∧
  IsForest T.edges ∧
  T.edges.length = T.nodes.length - 1

/-!  Executable companions of the propositions above (used to settle
them on concrete graphs; their agreement with the propositions is
proved below). -/

/-- `S` is closed under adjacency. -/
def closedb (E : List (ℕ × ℕ)) (S : List ℕ) : Bool :=
  S.all (fun x => (neighbors E x).all (fun y => y ∈ S))

def connectedb (g : Graph) : Bool :=
  g.nodes.all (fun x => g.nodes.all (fun y => reachb g.edges x y))

def forestb (E : List (ℕ × ℕ)) : Bool :=
  E.all (fun e => !reachb (removeEdgeL E e.1 e.2) e.1 e.2)

def wfb (g : Graph) : Bool :=
  g.edges.all (fun e => e.1 ∈ g.nodes && e.2 ∈ g.nodes)

def isSpanningTreeb (base T : Graph) : Bool :=
  (T.nodes = base.nodes : Bool) &&
  T.edges.all (fun e => hasEdgeL base.edges e.1 e.2) &&
  (T.edges.Pairwise (fun e f => uMatch e f = false) : Bool) &&
  connectedb T &&
  forestb T.edges &&
  (T.edges.length = T.nodes.length - 1 : Bool)

/-!  The energy functions of `models.py`. -/

/-- Distances from `root`, as `nx.shortest_path_length(value, root)`
provides them: only the vertices reachable from `root` carry a
distance.  This model returns the list of reachable vertices paired
with the count of them lying strictly beyond distance `k`:  a vertex is
within distance `k` exactly when `k` expansion steps from `{root}`
reach it. -/
def countDistGT (g : Graph) (root k : ℕ) : ℕ :=
  ((reachList g.edges root).filter
    (fun v => !(v ∈ iterExpand g.edges [root] k : Bool))).length

/-- `bdst` of `models.py` (the log-probability of the bounded-depth
stochastic): `-beta * np.sum(path_len > k)` where `path_len` collects
`nx.shortest_path_length(value, root).values()`. -/
def bdstLogp (value : Graph) (root k : ℕ) (beta : ℚ) : ℚ :=
  -beta * (countDistGT value root k : ℚ)

/-- Count of nodes of `g` with degree at least `d`. -/
def countDegGE (g : Graph) (d : ℕ) : ℕ :=
  (g.nodes.filter (fun v => d ≤ degree g v)).length

/-- `ldst` of `models.py` (the log-probability of the low-degree
stochastic): `-beta * np.sum(np.array(list(T.degree().values())) >= d)`.
Note the source body reads the *closure* variables `T` (the tree built
when `LDST` was called) and `d`, not the `value` argument: the model
keeps both the closure tree `T` and the `value` argument to mirror
that. -/
def ldstLogp (T : Graph) (d : ℕ) (beta : ℚ) (value : Graph) : ℚ :=
  -beta * (countDegGE T d : ℚ)

/-!  `nx.minimum_spanning_tree` (Kruskal, as in `networkx`): scan the
edges in nondecreasing weight order, keeping an edge when its ends are
not yet joined by the kept edges.  On a disconnected graph this returns
a minimum spanning forest - no error is raised.  The result keeps every
node of the input graph. -/

/-- Stable insertion sort, modelling the stable sort (`sorted`) that
Kruskal applies to the weighted edge list. -/
def insertSorted (le : ℕ × ℕ → ℕ × ℕ → Bool) (x : ℕ × ℕ) :
    List (ℕ × ℕ) → List (ℕ × ℕ)
  | [] => [x]
  | y :: ys => if le x y then x :: y :: ys else y :: insertSorted le x ys

def sortEdges (le : ℕ × ℕ → ℕ × ℕ → Bool) : List (ℕ × ℕ) → List (ℕ × ℕ)
  | [] => []
  | x :: xs => insertSorted le x (sortEdges le xs)

def minimum_spanning_tree (G : Graph) (w : ℕ × ℕ → ℚ) : Graph :=
  (sortEdges (fun e f => w e ≤ w f) G.edges).foldl
    (fun T e => if reachb T.edges e.1 e.2 then T
                else { T with edges := T.edges ++ [e] })
    { nodes := G.nodes, edges := [] }

/-- The state of a PyMC stochastic built by `BDST` / `LDST`: its
current tree value together with the parameters the log-probability
closes over. -/
structure Stoch where
  value : Graph
  root : ℕ
  bound : ℕ
  beta : ℚ
deriving Repr, DecidableEq

/-- `BDST(G, root, k, beta)` of `models.py`: seeds the stochastic with
a minimum spanning tree (forest, when `G` is disconnected - the source
performs no connectivity check) of the base graph. -/
def BDST (G : Graph) (w : ℕ × ℕ → ℚ) (root k : ℕ) (beta : ℚ) : Stoch :=
  { value := minimum_spanning_tree G w, root := root, bound := k, beta := beta }

/-- `LDST(G, d, beta)` of `models.py`: same seeding, no connectivity
check. -/
def LDST (G : Graph) (w : ℕ × ℕ → ℚ) (d : ℕ) (beta : ℚ) : Stoch :=
  { value := minimum_spanning_tree G w, root := 0, bound := d, beta := beta }

/-!  `STMetropolis.propose` / `STMetropolis.reject`. -/

/-- The transient per-iteration data the source stores on the tree
object (`T.u_new, T.v_new, T.u_old, T.v_old, T.path`); §3 of the design
calls it the Proposal Record. -/
structure ProposalRecord where
  unew : ℕ
  vnew : ℕ
  uold : ℕ
  vold : ℕ
  path : List ℕ
deriving Repr, DecidableEq

/-- The edge-resampling loop of `propose`:

    T.u_new, T.v_new = T.edges()[0]
    while T.has_edge(T.u_new, T.v_new):
        T.u_new, T.v_new = random.choice(T.base_graph.edges())

`c` is the current candidate, `draws` the stream of indices produced by
`random.choice` (one per loop pass); the loop fails (`none`) when the
stream is exhausted while the candidate is still a tree edge, or when a
draw is out of range. -/
def chooseNewEdge (base T : Graph) : ℕ × ℕ → List ℕ → Option (ℕ × ℕ)
  | c, draws =>
    if T.hasEdge c.1 c.2 = false then some c
    else
      match draws with
      | [] => none
      | r :: rs =>
        match base.edges.get? r with
        | none => none
        | some c' => chooseNewEdge base T c' rs

/-- `STMetropolis.propose` on current tree value `T` (with base graph
`base`): pick an edge of the base graph not in the tree, compute the
tree path between its ends, remove the `i`-th path edge
(`i = random.randrange(len(T.path)-1)`) and add the new edge.  Fails
(`none`) exactly where the Python raises: no tree edge at all
(`T.edges()[0]` on an empty list), the resampling loop given `draws`,
no path, or `i` out of `randrange`'s range. -/
def propose (base T : Graph) (draws : List ℕ) (i : ℕ) :
    Option (Graph × ProposalRecord) := do
  let c0 ← T.edges.head?
  let cnew ← chooseNewEdge base T c0 draws
  let p ← findPath T.edges (T.nodes.length + 1) [] cnew.1 cnew.2
  let uold ← p.get? i
  let vold ← p.get? (i + 1)
  let T1 ← T.removeEdge uold vold
  let T2 := T1.addEdge cnew.1 cnew.2
  some (T2, ⟨cnew.1, cnew.2, uold, vold, p⟩)

/-- `STMetropolis.reject`: re-add the removed edge, remove the added
one (`none` where `remove_edge` would raise). -/
def reject (T : Graph) (rec : ProposalRecord) : Option Graph :=
  (T.addEdge rec.uold rec.vold).removeEdge rec.unew rec.vnew

/-!  The Metropolis acceptance step.

Modelled from the spec: the accept/reject decision is made by PyMC's
`Metropolis` step method (class `STMetropolis` only overrides `propose`
and `reject`), whose code is not part of this repository.  §4.4 of the
design: "compute `energy(candidate) - energy(current)`; accept with
probability `min(1, exp(delta))` using one uniform random draw in
[0,1); if rejected, invoke the reversal to restore the tree". -/

/-- Modelled from the spec: acceptance of a proposal with energy gap
`delta` given the uniform draw `u` in `[0,1)`. -/
def metropolisAccepts (delta u : ℝ) : Prop :=
  u < min 1 (Real.exp delta)

/-- Modelled from the spec: one completed iteration of the sampler.
`result` is the stochastic's value after the accept/reject decision:
the proposed tree on acceptance, the restored tree (via `reject`)
otherwise. -/
def mhStep (energy : Graph → ℚ) (base T : Graph) (draws : List ℕ) (i : ℕ)
    (u : ℝ) (result : Graph) : Prop :=
  ∃ T' rec, propose base T draws i = some (T', rec) ∧
    ((metropolisAccepts ((energy T' : ℝ) - (energy T : ℝ)) u ∧ result = T') ∨
     (¬ metropolisAccepts ((energy T' : ℝ) - (energy T : ℝ)) u ∧
       reject T' rec = some result))

/-!  Concrete instances (used to settle the theorems below on explicit
inputs). -/

/-- A triangle base graph. -/
def triBase : Graph := ⟨[0, 1, 2], [(0, 1), (1, 2), (0, 2)]⟩

/-- A spanning tree of the triangle: the path 0 - 1 - 2. -/
def pathT : Graph := ⟨[0, 1, 2], [(0, 1), (1, 2)]⟩

/-- A disconnected base graph on four nodes. -/
def fourBase : Graph := ⟨[0, 1, 2, 3], [(0, 1), (2, 3)]⟩

/-- A single-edge graph on two nodes. -/
def twoK : Graph := ⟨[0, 1], [(0, 1)]⟩

/-- Two isolated nodes (no edges). -/
def twoIso : Graph := ⟨[0, 1], []⟩

/-- Constant edge weights. -/
def wOne : ℕ × ℕ → ℚ := fun _ => 1

/-- A concrete energy function for instantiating the acceptance step:
it counts the copies of the edge (0, 2). -/
def exampleEnergy (g : Graph) : ℚ := (countU g.edges (0, 2) : ℚ)

/-!  Specification-side notions, used to state the claims against the
definitions above.  -/

/-- Walks of a given length: `ReachN E n x y` holds when there is a
walk of exactly `n` edges from `x` to `y`. -/
inductive ReachN (E : List (ℕ × ℕ)) : ℕ → ℕ → ℕ → Prop
  | refl (x : ℕ) : ReachN E 0 x x
  | head {x z y n} : Adj E x z → ReachN E n z y → ReachN E (n + 1) x y

/-- The shortest-path length from `root` to `v` strictly exceeds `k`:
no walk of length at most `k` joins them. -/
def SPLExceeds (E : List (ℕ × ℕ)) (root v k : ℕ) : Prop :=
  ∀ n ≤ k, ¬ ReachN E n root v

/-!  ### Basic facts about undirected edge matching and adjacency -/

theorem uMatch_iff {e f : ℕ × ℕ} :
    uMatch e f = true ↔ (e.1 = f.1 ∧ e.2 = f.2) ∨ (e.1 = f.2 ∧ e.2 = f.1) := by
  simp [uMatch]

theorem uMatch_refl (e : ℕ × ℕ) : uMatch e e = true := by
  simp [uMatch]

theorem uMatch_symm {e f : ℕ × ℕ} (h : uMatch e f = true) : uMatch f e = true := by
  rw [uMatch_iff] at h ⊢; tauto

theorem uMatch_trans {e f g : ℕ × ℕ} (h1 : uMatch e f = true)
    (h2 : uMatch f g = true) : uMatch e g = true := by
  rw [uMatch_iff] at h1 h2 ⊢
  rcases h1 with ⟨a, b⟩ | ⟨a, b⟩ <;> rcases h2 with ⟨c, d⟩ | ⟨c, d⟩ <;>
    simp_all

theorem uMatch_swap_left {u v : ℕ} {f : ℕ × ℕ} :
    uMatch (u, v) f = uMatch (v, u) f := by
  simp only [uMatch]
  rcases Nat.decEq u f.1 with _ | _ <;> rcases Nat.decEq v f.2 with _ | _ <;>
    rcases Nat.decEq u f.2 with _ | _ <;> rcases Nat.decEq v f.1 with _ | _ <;>
    simp_all

theorem uMatch_swap_right {e : ℕ × ℕ} {x y : ℕ} :
    uMatch e (x, y) = uMatch e (y, x) := by
  simp only [uMatch]
  rcases Nat.decEq e.1 x with _ | _ <;> rcases Nat.decEq e.2 y with _ | _ <;>
    rcases Nat.decEq e.1 y with _ | _ <;> rcases Nat.decEq e.2 x with _ | _ <;>
    simp_all

theorem hasEdgeL_iff {E : List (ℕ × ℕ)} {u v : ℕ} :
    hasEdgeL E u v = true ↔ Adj E u v := by
  constructor
  · intro h
    rcases List.any_eq_true.mp h with ⟨f, hf, hm⟩
    rcases uMatch_iff.mp hm with ⟨h1, h2⟩ | ⟨h1, h2⟩
    · left; have : f = (u, v) := by cases f; simp_all
      rwa [this] at hf
    · right; have : f = (v, u) := by cases f; simp_all
      rwa [this] at hf
  · rintro (h | h)
    · exact List.any_eq_true.mpr ⟨(u, v), h, by simp [uMatch]⟩
    · exact List.any_eq_true.mpr ⟨(v, u), h, by simp [uMatch]⟩

theorem adj_symm {E : List (ℕ × ℕ)} {x y : ℕ} (h : Adj E x y) : Adj E y x := by
  rcases h with h | h
  · exact Or.inr h
  · exact Or.inl h

theorem adj_symmetric (E : List (ℕ × ℕ)) : Symmetric (Adj E) :=
  fun _ _ => adj_symm

theorem mem_neighbors {E : List (ℕ × ℕ)} {u w : ℕ} :
    w ∈ neighbors E u ↔ Adj E u w := by
  constructor
  · intro h
    rcases List.mem_filterMap.mp h with ⟨e, he, hcase⟩
    by_cases h1 : e.1 = u
    · simp only [h1, if_pos rfl] at hcase
      left
      have : e = (u, w) := by cases e; simp_all
      rwa [this] at he
    · simp only [if_neg h1] at hcase
      by_cases h2 : e.2 = u
      · simp only [h2, if_pos rfl] at hcase
        right
        have : e = (w, u) := by cases e; simp_all
        rwa [this] at he
      · simp [h2] at hcase
  · rintro (h | h)
    · exact List.mem_filterMap.mpr ⟨(u, w), h, by simp⟩
    · refine List.mem_filterMap.mpr ⟨(w, u), h, ?_⟩
      by_cases hwu : w = u <;> simp [hwu]

theorem adj_of_mem {E : List (ℕ × ℕ)} {e : ℕ × ℕ} (h : e ∈ E) :
    Adj E e.1 e.2 := Or.inl h

theorem hasEdgeL_of_mem {E : List (ℕ × ℕ)} {e : ℕ × ℕ} (h : e ∈ E) :
    hasEdgeL E e.1 e.2 = true := hasEdgeL_iff.mpr (adj_of_mem h)

theorem mem_removeEdgeL {E : List (ℕ × ℕ)} {u v : ℕ} {f : ℕ × ℕ} :
    f ∈ removeEdgeL E u v ↔ f ∈ E ∧ uMatch (u, v) f = false := by
  simp [removeEdgeL, List.mem_filter]

theorem adj_removeEdgeL {E : List (ℕ × ℕ)} {u v x y : ℕ} :
    Adj (removeEdgeL E u v) x y ↔ Adj E x y ∧ uMatch (u, v) (x, y) = false := by
  constructor
  · rintro (h | h) <;> rcases mem_removeEdgeL.mp h with ⟨hmem, hm⟩
    · exact ⟨Or.inl hmem, hm⟩
    · exact ⟨Or.inr hmem, by rwa [uMatch_swap_right]⟩
  · rintro ⟨h | h, hm⟩
    · exact Or.inl (mem_removeEdgeL.mpr ⟨h, hm⟩)
    · exact Or.inr (mem_removeEdgeL.mpr ⟨h, by rwa [uMatch_swap_right] at hm⟩)

theorem adj_append_single {E : List (ℕ × ℕ)} {g : ℕ × ℕ} {x y : ℕ} :
    Adj (E ++ [g]) x y ↔ Adj E x y ∨ uMatch (x, y) g = true := by
  constructor
  · rintro (h | h) <;> rcases List.mem_append.mp h with h' | h'
    · exact Or.inl (Or.inl h')
    · refine Or.inr ?_
      have hg : g = (x, y) := (List.mem_singleton.mp h').symm
      simp [hg, uMatch_refl]
    · exact Or.inl (Or.inr h')
    · refine Or.inr ?_
      have hg : g = (y, x) := (List.mem_singleton.mp h').symm
      rw [hg, ← uMatch_swap_right, uMatch_refl]
  · rintro (h | h)
    · rcases h with h | h
      · exact Or.inl (List.mem_append.mpr (Or.inl h))
      · exact Or.inr (List.mem_append.mpr (Or.inl h))
    · rcases uMatch_iff.mp h with ⟨h1, h2⟩ | ⟨h1, h2⟩
      · left
        have : g = (x, y) := by cases g; simp_all
        simp [this]
      · right
        have : g = (y, x) := by cases g; simp_all
        simp [this]

/-!  ### Reachability -/

theorem reach_refl {E : List (ℕ × ℕ)} {x : ℕ} : Reach E x x :=
  Relation.ReflTransGen.refl

theorem reach_of_adj {E : List (ℕ × ℕ)} {x y : ℕ} (h : Adj E x y) :
    Reach E x y :=
  Relation.ReflTransGen.single h

theorem reach_trans {E : List (ℕ × ℕ)} {x y z : ℕ} (h1 : Reach E x y)
    (h2 : Reach E y z) : Reach E x z :=
  Relation.ReflTransGen.trans h1 h2

theorem reach_symm {E : List (ℕ × ℕ)} {x y : ℕ} (h : Reach E x y) :
    Reach E y x :=
  (Relation.ReflTransGen.symmetric (adj_symmetric E)) h

theorem reach_mono {E F : List (ℕ × ℕ)}
    (hadj : ∀ x y, Adj E x y → Adj F x y) {x y : ℕ} (h : Reach E x y) :
    Reach F x y := by
  induction h with
  | refl => exact reach_refl
  | tail _ hstep ih => exact reach_trans ih (reach_of_adj (hadj _ _ hstep))

/-- Replace each step through an edge that is joined some other way. -/
theorem reach_elim_step {E F : List (ℕ × ℕ)}
    (hadj : ∀ x y, Adj E x y → Reach F x y) {x y : ℕ} (h : Reach E x y) :
    Reach F x y := by
  induction h with
  | refl => exact reach_refl
  | tail _ hstep ih => exact reach_trans ih (hadj _ _ hstep)

/-- A set closed under adjacency absorbs reachability. -/
theorem mem_of_reach_closed {E : List (ℕ × ℕ)} {S : List ℕ}
    (hclosed : ∀ x ∈ S, ∀ y, Adj E x y → y ∈ S) {x y : ℕ}
    (hx : x ∈ S) (h : Reach E x y) : y ∈ S := by
  induction h with
  | refl => exact hx
  | tail _ hstep ih => exact hclosed _ ih _ hstep

theorem not_reach_of_closed {E : List (ℕ × ℕ)} {S : List ℕ}
    (hclosed : ∀ x ∈ S, ∀ y, Adj E x y → y ∈ S) {x y : ℕ}
    (hx : x ∈ S) (hy : y ∉ S) : ¬ Reach E x y :=
  fun h => hy (mem_of_reach_closed hclosed hx h)

theorem closedb_closed {E : List (ℕ × ℕ)} {S : List ℕ}
    (h : closedb E S = true) : ∀ x ∈ S, ∀ y, Adj E x y → y ∈ S := by
  intro x hx y hadj
  have h1 := List.all_eq_true.mp h x hx
  have h2 := List.all_eq_true.mp h1 y (mem_neighbors.mpr hadj)
  simpa using h2

/-!  ### The expansion fixpoint computes reachability -/

theorem mem_addNew {S xs : List ℕ} {y : ℕ} :
    y ∈ addNew S xs ↔ y ∈ S ∨ y ∈ xs := by
  induction xs generalizing S with
  | nil => simp [addNew]
  | cons x xs ih =>
    by_cases hx : x ∈ S
    · simp only [addNew, List.foldl_cons, if_pos hx]
      rw [show List.foldl _ S xs = addNew S xs from rfl, ih]
      constructor
      · rintro (h | h)
        · exact Or.inl h
        · exact Or.inr (List.mem_cons_of_mem _ h)
      · rintro (h | h)
        · exact Or.inl h
        · rcases List.mem_cons.mp h with rfl | h
          · exact Or.inl hx
          · exact Or.inr h
    · simp only [addNew, List.foldl_cons, if_neg hx]
      rw [show List.foldl _ (S ++ [x]) xs = addNew (S ++ [x]) xs from rfl, ih]
      simp only [List.mem_append, List.mem_singleton, List.mem_cons]
      tauto

theorem nodup_addNew {S xs : List ℕ} (h : S.Nodup) : (addNew S xs).Nodup := by
  induction xs generalizing S with
  | nil => exact h
  | cons x xs ih =>
    by_cases hx : x ∈ S
    · simpa [addNew, List.foldl_cons, if_pos hx] using ih h
    · simp only [addNew, List.foldl_cons, if_neg hx]
      exact ih (by simp [List.nodup_append, h, hx])

theorem subset_addNew {S xs : List ℕ} : S ⊆ addNew S xs :=
  fun _ hy => mem_addNew.mpr (Or.inl hy)

theorem mem_expandOnce {E : List (ℕ × ℕ)} {S : List ℕ} {y : ℕ} :
    y ∈ expandOnce E S ↔ y ∈ S ∨ ∃ x ∈ S, Adj E x y := by
  rw [expandOnce, mem_addNew, List.mem_flatMap]
  constructor
  · rintro (h | ⟨x, hx, hy⟩)
    · exact Or.inl h
    · exact Or.inr ⟨x, hx, mem_neighbors.mp hy⟩
  · rintro (h | ⟨x, hx, hy⟩)
    · exact Or.inl h
    · exact Or.inr ⟨x, hx, mem_neighbors.mpr hy⟩

theorem subset_expandOnce {E : List (ℕ × ℕ)} {S : List ℕ} :
    S ⊆ expandOnce E S :=
  subset_addNew

theorem nodup_expandOnce {E : List (ℕ × ℕ)} {S : List ℕ} (h : S.Nodup) :
    (expandOnce E S).Nodup :=
  nodup_addNew h

theorem reachClose_sound {E : List (ℕ × ℕ)} {r : ℕ} :
    ∀ {f : ℕ} {S : List ℕ}, (∀ s ∈ S, Reach E r s) →
      ∀ y ∈ reachClose E S f, Reach E r y := by
  intro f
  induction f with
  | zero => intro S hS y hy; exact hS y hy
  | succ f ih =>
    intro S hS y hy
    rw [reachClose] at hy
    by_cases hlen : (expandOnce E S).length = S.length
    · simp only [if_pos hlen] at hy
      exact hS y hy
    · simp only [if_neg hlen] at hy
      refine ih ?_ y hy
      intro s hs
      rcases mem_expandOnce.mp hs with h | ⟨x, hx, hadj⟩
      · exact hS s h
      · exact reach_trans (hS x hx) (reach_of_adj hadj)

theorem subset_reachClose {E : List (ℕ × ℕ)} :
    ∀ {f : ℕ} {S : List ℕ}, S ⊆ reachClose E S f := by
  intro f
  induction f with
  | zero => intro S; exact fun _ h => h
  | succ f ih =>
    intro S y hy
    rw [reachClose]
    by_cases hlen : (expandOnce E S).length = S.length
    · simpa [if_pos hlen] using hy
    · simp only [if_neg hlen]
      exact ih (subset_expandOnce hy)

theorem toFinset_subset_of_subset {S U : List ℕ} (h : S ⊆ U) :
    S.toFinset ⊆ U.toFinset := by
  intro a ha
  exact List.mem_toFinset.mpr (h (List.mem_toFinset.mp ha))

theorem nodup_length_le {S U : List ℕ} (hnd : S.Nodup) (hsub : S ⊆ U) :
    S.length ≤ U.dedup.length := by
  calc S.length = S.toFinset.card := (List.toFinset_card_of_nodup hnd).symm
    _ ≤ U.toFinset.card := Finset.card_le_card (toFinset_subset_of_subset hsub)
    _ = U.dedup.length := List.card_toFinset U

theorem set_eq_of_subset_of_length_le {S S' : List ℕ} (hnd : S.Nodup)
    (hnd' : S'.Nodup) (hsub : S ⊆ S') (hlen : S'.length ≤ S.length) :
    ∀ y ∈ S', y ∈ S := by
  have h1 : S.toFinset ⊆ S'.toFinset := toFinset_subset_of_subset hsub
  have h2 : S'.toFinset.card ≤ S.toFinset.card := by
    rw [List.toFinset_card_of_nodup hnd, List.toFinset_card_of_nodup hnd']
    exact hlen
  have h3 := Finset.eq_of_subset_of_card_le h1 h2
  intro y hy
  have : y ∈ S'.toFinset := List.mem_toFinset.mpr hy
  rw [← h3] at this
  exact List.mem_toFinset.mp this

/-- With fuel beyond the number of distinct vertices the expansion
fixpoint is reached, and the resulting set is closed under adjacency. -/
theorem reachClose_closed {E : List (ℕ × ℕ)} {U : List ℕ}
    (hU : ∀ x y, Adj E x y → y ∈ U) :
    ∀ f S, S.Nodup → S ⊆ U → U.dedup.length < S.length + f →
      ∀ x ∈ reachClose E S f, ∀ y, Adj E x y → y ∈ reachClose E S f := by
  intro f
  induction f with
  | zero =>
    intro S hnd hsub hfuel
    exact absurd (nodup_length_le hnd hsub) (by omega)
  | succ f ih =>
    intro S hnd hsub hfuel
    rw [reachClose]
    by_cases hlen : (expandOnce E S).length = S.length
    · simp only [if_pos hlen]
      intro x hx y hadj
      have hy : y ∈ expandOnce E S := mem_expandOnce.mpr (Or.inr ⟨x, hx, hadj⟩)
      exact set_eq_of_subset_of_length_le hnd (nodup_expandOnce hnd)
        subset_expandOnce (le_of_eq hlen) y hy
    · simp only [if_neg hlen]
      have hsub' : expandOnce E S ⊆ U := by
        intro y hy
        rcases mem_expandOnce.mp hy with h | ⟨x, _, hadj⟩
        · exact hsub h
        · exact hU x y hadj
      have hgrow : S.length < (expandOnce E S).length := by
        have h1 : S.length ≤ (expandOnce E S).length := by
          calc S.length = S.toFinset.card := (List.toFinset_card_of_nodup hnd).symm
            _ ≤ (expandOnce E S).toFinset.card :=
              Finset.card_le_card (toFinset_subset_of_subset subset_expandOnce)
            _ = (expandOnce E S).length :=
              List.toFinset_card_of_nodup (nodup_expandOnce hnd)
        omega
      exact ih (expandOnce E S) (nodup_expandOnce hnd) hsub' (by omega)

theorem reachClose_nodup {E : List (ℕ × ℕ)} :
    ∀ {f : ℕ} {S : List ℕ}, S.Nodup → (reachClose E S f).Nodup := by
  intro f
  induction f with
  | zero => intro S h; exact h
  | succ f ih =>
    intro S h
    rw [reachClose]
    by_cases hlen : (expandOnce E S).length = S.length
    · simpa [if_pos hlen] using h
    · simp only [if_neg hlen]
      exact ih (nodup_expandOnce h)

theorem mem_endpoints_of_adj {E : List (ℕ × ℕ)} {a b : ℕ} (h : Adj E a b) :
    b ∈ endpoints E := by
  rcases h with h | h
  · exact List.mem_flatMap.mpr ⟨(a, b), h, by simp⟩
  · exact List.mem_flatMap.mpr ⟨(b, a), h, by simp⟩

theorem mem_reachList_iff {E : List (ℕ × ℕ)} {x y : ℕ} :
    y ∈ reachList E x ↔ Reach E x y := by
  constructor
  · intro h
    refine reachClose_sound ?_ y h
    intro s hs
    rcases List.mem_singleton.mp hs with rfl
    exact reach_refl
  · intro h
    have hU : ∀ a b, Adj E a b → b ∈ x :: endpoints E :=
      fun a b hab => List.mem_cons_of_mem _ (mem_endpoints_of_adj hab)
    have hclosed := reachClose_closed hU (reachFuel E x) [x]
      (List.nodup_singleton x)
      (fun a ha => by rw [List.mem_singleton.mp ha]; exact List.mem_cons_self _ _)
      (by rw [reachFuel]; omega)
    exact mem_of_reach_closed hclosed
      (subset_reachClose (List.mem_singleton.mpr rfl)) h

theorem reachList_nodup {E : List (ℕ × ℕ)} {x : ℕ} : (reachList E x).Nodup :=
  reachClose_nodup (List.nodup_singleton x)

theorem reachb_iff {E : List (ℕ × ℕ)} {x y : ℕ} :
    reachb E x y = true ↔ Reach E x y := by
  rw [reachb, decide_eq_true_eq]
  exact mem_reachList_iff

theorem connectedb_iff {g : Graph} : connectedb g = true ↔ Connected g := by
  constructor
  · intro h x hx y hy
    have h1 := List.all_eq_true.mp h x hx
    have h2 := List.all_eq_true.mp h1 y hy
    exact reachb_iff.mp h2
  · intro h
    refine List.all_eq_true.mpr fun x hx => List.all_eq_true.mpr fun y hy => ?_
    exact reachb_iff.mpr (h x hx y hy)

theorem forestb_iff {E : List (ℕ × ℕ)} : forestb E = true ↔ IsForest E := by
  constructor
  · intro h e he hreach
    have h1 := List.all_eq_true.mp h e he
    rw [Bool.not_eq_true'] at h1
    exact absurd (reachb_iff.mpr hreach) (by simp [h1])
  · intro h
    refine List.all_eq_true.mpr fun e he => ?_
    have := h e he
    rw [Bool.not_eq_true']
    rw [← Bool.not_eq_true]
    intro hb
    exact this (reachb_iff.mp hb)

theorem nodupU_iff_countU {E : List (ℕ × ℕ)} :
    NodupU E ↔ ∀ e, countU E e ≤ 1 := by
  constructor
  · intro h e
    induction E with
    | nil => simp [countU]
    | cons f E ih =>
      rcases List.pairwise_cons.mp h with ⟨hf, hE⟩
      have ihE := ih hE
      rw [countU, List.countP_cons]
      by_cases hm : uMatch e f = true
      · have : countU E e = 0 := by
          rw [countU, List.countP_eq_zero]
          intro g hg
          have h1 : uMatch f g = false := hf g hg
          intro hcon
          exact absurd (uMatch_trans (uMatch_symm hm) hcon) (by simp [h1])
        rw [countU] at this
        simp [this, hm]
      · simp only [hm]
        rw [countU] at ihE
        simpa using ihE
  · intro h
    induction E with
    | nil => exact List.Pairwise.nil
    | cons f E ih =>
      refine List.pairwise_cons.mpr ⟨?_, ?_⟩
      · intro g hg
        by_contra hcon
        rw [Bool.not_eq_false] at hcon
        have : 2 ≤ countU (f :: E) f := by
          rw [countU, List.countP_cons]
          have h1 : 1 ≤ List.countP (fun x => uMatch f x) E := by
            rw [List.one_le_countP_iff]
            exact ⟨g, hg, hcon⟩
          have h2 : uMatch f f = true := uMatch_refl f
          rw [h2, if_pos rfl]
          omega
        exact absurd (h f) (by omega)
      · refine ih fun e => ?_
        have := h e
        rw [countU, List.countP_cons] at this
        rw [countU]
        omega

theorem countU_eq_one_of_mem {E : List (ℕ × ℕ)} {e : ℕ × ℕ}
    (hnd : NodupU E) (he : e ∈ E) : countU E e = 1 := by
  have hle := nodupU_iff_countU.mp hnd e
  have hge : 1 ≤ countU E e := by
    rw [countU, List.one_le_countP_iff]
    exact ⟨e, he, uMatch_refl e⟩
  omega

/-!  ### Walk lengths and the distance balls of `iterExpand` -/

theorem reachN_zero {E : List (ℕ × ℕ)} {x y : ℕ} :
    ReachN E 0 x y ↔ x = y := by
  constructor
  · intro h; cases h; rfl
  · rintro rfl; exact ReachN.refl x

theorem reachN_succ {E : List (ℕ × ℕ)} {n : ℕ} {x y : ℕ} :
    ReachN E (n + 1) x y ↔ ∃ z, Adj E x z ∧ ReachN E n z y := by
  constructor
  · intro h
    cases h with
    | head hadj htail => exact ⟨_, hadj, htail⟩
  · rintro ⟨z, hadj, htail⟩
    exact ReachN.head hadj htail

theorem reach_iff_reachN {E : List (ℕ × ℕ)} {x y : ℕ} :
    Reach E x y ↔ ∃ n, ReachN E n x y := by
  constructor
  · intro h
    induction h using Relation.ReflTransGen.head_induction_on with
    | refl => exact ⟨0, ReachN.refl y⟩
    | head hadj _ ih =>
      rcases ih with ⟨n, hn⟩
      exact ⟨n + 1, ReachN.head hadj hn⟩
  · rintro ⟨n, hn⟩
    induction hn with
    | refl => exact reach_refl
    | head hadj _ ih => exact Relation.ReflTransGen.head hadj ih

theorem mem_iterExpand {E : List (ℕ × ℕ)} :
    ∀ {k : ℕ} {S : List ℕ} {y : ℕ},
      y ∈ iterExpand E S k ↔ ∃ x ∈ S, ∃ n ≤ k, ReachN E n x y := by
  intro k
  induction k with
  | zero =>
    intro S y
    rw [iterExpand]
    constructor
    · intro h
      exact ⟨y, h, 0, Nat.le_refl 0, ReachN.refl y⟩
    · rintro ⟨x, hx, n, hn, hr⟩
      rw [Nat.le_zero] at hn
      subst hn
      rwa [← reachN_zero.mp hr]

  | succ k ih =>
    intro S y
    rw [iterExpand, ih]
    constructor
    · rintro ⟨x, hx, n, hn, hr⟩
      rcases mem_expandOnce.mp hx with hx | ⟨s, hs, hadj⟩
      · exact ⟨x, hx, n, Nat.le_succ_of_le hn, hr⟩
      · exact ⟨s, hs, n + 1, Nat.succ_le_succ hn, ReachN.head hadj hr⟩
    · rintro ⟨x, hx, n, hn, hr⟩
      cases hr with
      | refl =>
        exact ⟨_, subset_expandOnce hx, 0, Nat.zero_le k, ReachN.refl _⟩
      | head hadj htail =>
        rename_i z m
        refine ⟨z, mem_expandOnce.mpr (Or.inr ⟨x, hx, hadj⟩), m, ?_, htail⟩
        omega

/-- Membership in the `k`-ball from the root is exactly "shortest-path
length at most `k`". -/
theorem mem_ball_iff {E : List (ℕ × ℕ)} {root y k : ℕ} :
    y ∈ iterExpand E [root] k ↔ ∃ n ≤ k, ReachN E n root y := by
  rw [mem_iterExpand]
  constructor
  · rintro ⟨x, hx, hn⟩
    rw [List.mem_singleton.mp hx] at hn
    exact hn
  · intro h
    exact ⟨root, List.mem_singleton.mpr rfl, h⟩

/-!  ### The output contract of `findPath` -/

theorem findPath_spec :
    ∀ (f : ℕ) {E : List (ℕ × ℕ)} {avoid : List ℕ} {u v : ℕ} {p : List ℕ},
      findPath E f avoid u v = some p →
      ∃ q, p = u :: q ∧ List.Chain' (Adj E) p ∧ p.getLast? = some v ∧
        (∀ x ∈ q, x ∉ avoid ∧ x ≠ u) ∧ p.Nodup := by
  intro f
  induction f with
  | zero =>
    intro E avoid u v p h
    rw [findPath] at h
    cases h
  | succ f ih =>
    intro E avoid u v p h
    rw [findPath] at h
    by_cases huv : u = v
    · rw [if_pos huv] at h
      rcases Option.some.inj h with rfl
      exact ⟨[], rfl, List.chain'_singleton u, by simp [huv], by simp,
        List.nodup_singleton u⟩
    · rw [if_neg huv] at h
      rcases List.exists_of_findSome?_eq_some h with ⟨w, hwn, hw⟩
      by_cases hwa : w ∈ u :: avoid
      · rw [if_pos hwa] at hw
        cases hw
      · rw [if_neg hwa] at hw
        rcases Option.map_eq_some'.mp hw with ⟨p', hp', rfl⟩
        rcases ih hp' with ⟨q', rfl, hchain, hlast, havoid, hnodup⟩
        have hadj : Adj E u w := mem_neighbors.mp hwn
        have hwu : w ≠ u ∧ w ∉ avoid := by
          constructor
          · intro hcon
            exact hwa (by simp [hcon])
          · intro hcon
            exact hwa (List.mem_cons_of_mem _ hcon)
        refine ⟨w :: q', rfl, ?_, ?_, ?_, ?_⟩
        · exact List.chain'_cons.mpr ⟨hadj, hchain⟩
        · rwa [List.getLast?_cons_cons]
        · intro x hx
          rcases List.mem_cons.mp hx with rfl | hx
          · exact ⟨hwu.2, hwu.1⟩
          · have := havoid x hx
            exact ⟨fun hc => this.1 (List.mem_cons_of_mem _ hc),
              fun hc => this.1 (by simp [hc])⟩
        · refine List.nodup_cons.mpr ⟨?_, hnodup⟩
          intro hc
          rcases List.mem_cons.mp hc with rfl | hc
          · exact hwu.1 rfl
          · exact (havoid u hc).1 (List.mem_cons_self _ _)

/-!  ### Paths as index chains -/

theorem chain_adj_getD {E : List (ℕ × ℕ)} {p : List ℕ}
    (hchain : List.Chain' (Adj E) p) :
    ∀ j, j + 1 < p.length → Adj E (p.getD j 0) (p.getD (j + 1) 0) := by
  intro j hj
  have h := List.chain'_iff_get.mp hchain j (by omega)
  rw [List.getD_eq_getElem _ _ (show j < p.length by omega),
    List.getD_eq_getElem _ _ hj]
  exact h

theorem nodup_getD_inj {p : List ℕ} (h : p.Nodup) {a b : ℕ}
    (ha : a < p.length) (hb : b < p.length)
    (heq : p.getD a 0 = p.getD b 0) : a = b := by
  rw [List.getD_eq_getElem _ _ ha, List.getD_eq_getElem _ _ hb] at heq
  exact (List.Nodup.getElem_inj_iff h).mp heq

/-- Walk along a contiguous index segment of a path whose edges (other
than the `i`-th) are available in `F`; the segment must stay on one
side of the missing edge. -/
theorem reach_segment_skip {F : List (ℕ × ℕ)} {p : List ℕ} {i : ℕ}
    (hadj : ∀ j, j + 1 < p.length → j ≠ i → Adj F (p.getD j 0) (p.getD (j + 1) 0)) :
    ∀ a b, a ≤ b → b < p.length → (b ≤ i ∨ i + 1 ≤ a) →
      Reach F (p.getD a 0) (p.getD b 0) := by
  intro a b hab
  induction b, hab using Nat.le_induction with
  | base => intro _ _; exact reach_refl
  | succ b hab ih =>
    intro hb hside
    refine reach_trans (ih (by omega) (by omega))
      (reach_of_adj (hadj b (by omega) (by omega)))

theorem getLast?_eq_getD {p : List ℕ} (h : p ≠ []) :
    p.getLast? = some (p.getD (p.length - 1) 0) := by
  have hlen : p.length - 1 < p.length := by
    cases p with
    | nil => exact absurd rfl h
    | cons a l => simp
  rw [List.getLast?_eq_getElem?, List.getElem?_eq_getElem hlen,
    List.getD_eq_getElem _ _ hlen]

/-!  ### Counting undirected edges -/

theorem countU_append {E F : List (ℕ × ℕ)} {e : ℕ × ℕ} :
    countU (E ++ F) e = countU E e + countU F e := by
  simp [countU, List.countP_append]

theorem countU_congr_of_uMatch {E : List (ℕ × ℕ)} {e f : ℕ × ℕ}
    (h : uMatch e f = true) : countU E e = countU E f := by
  induction E with
  | nil => rfl
  | cons g E ih =>
    rw [countU, List.countP_cons, countU, List.countP_cons]
    rw [countU, countU] at ih
    have : uMatch e g = uMatch f g := by
      by_cases h1 : uMatch e g = true
      · rw [h1, (uMatch_trans (uMatch_symm h) h1)]
      · by_cases h2 : uMatch f g = true
        · exact absurd (uMatch_trans h h2) h1
        · rw [Bool.not_eq_true] at h1 h2; rw [h1, h2]
    rw [ih, this]

theorem removeEdgeL_cons {E : List (ℕ × ℕ)} {u v : ℕ} {f : ℕ × ℕ} :
    removeEdgeL (f :: E) u v =
      if uMatch (u, v) f = true then removeEdgeL E u v
      else f :: removeEdgeL E u v := by
  rw [removeEdgeL, List.filter_cons]
  by_cases hf : uMatch (u, v) f = true <;> simp [hf, removeEdgeL]

theorem countU_cons {E : List (ℕ × ℕ)} {f e : ℕ × ℕ} :
    countU (f :: E) e = countU E e + (if uMatch e f = true then 1 else 0) := by
  rw [countU, List.countP_cons, countU]

theorem countU_removeEdgeL {E : List (ℕ × ℕ)} {u v : ℕ} {e : ℕ × ℕ} :
    countU (removeEdgeL E u v) e =
      if uMatch (u, v) e = true then 0 else countU E e := by
  induction E with
  | nil => by_cases he : uMatch (u, v) e = true <;> simp [removeEdgeL, countU, he]
  | cons f E ih =>
    rw [removeEdgeL_cons]
    by_cases hf : uMatch (u, v) f = true
    · rw [if_pos hf, ih]
      by_cases he : uMatch (u, v) e = true
      · rw [if_pos he, if_pos he]
      · rw [if_neg he, if_neg he, countU_cons]
        have hef : uMatch e f = false := by
          by_contra hc
          rw [Bool.not_eq_false] at hc
          exact he (uMatch_trans hf (uMatch_symm hc))
        rw [hef]
        simp
    · rw [if_neg hf, countU_cons, ih, countU_cons]
      by_cases he : uMatch (u, v) e = true
      · rw [if_pos he, if_pos he]
        have hef : uMatch e f = false := by
          by_contra hc
          rw [Bool.not_eq_false] at hc
          exact hf (uMatch_trans he hc)
        rw [hef]
        simp
      · rw [if_neg he, if_neg he]

theorem length_removeEdgeL {E : List (ℕ × ℕ)} {u v : ℕ} :
    (removeEdgeL E u v).length + countU E (u, v) = E.length := by
  induction E with
  | nil => rfl
  | cons f E ih =>
    rw [removeEdgeL_cons, countU_cons]
    by_cases hf : uMatch (u, v) f = true
    · rw [if_pos hf, if_pos hf]
      simp only [List.length_cons]
      omega
    · rw [if_neg hf, if_neg hf]
      simp only [List.length_cons]
      omega

theorem countU_eq_one_of_adj {E : List (ℕ × ℕ)} {u v : ℕ}
    (hnd : NodupU E) (h : Adj E u v) : countU E (u, v) = 1 := by
  have hle := nodupU_iff_countU.mp hnd (u, v)
  have hge : 1 ≤ countU E (u, v) := by
    rw [countU, List.one_le_countP_iff]
    rcases h with h | h
    · exact ⟨(u, v), h, uMatch_refl _⟩
    · exact ⟨(v, u), h, by rw [uMatch_iff]; simp⟩
  omega

/-!  ### Undirected edge-set equality and its congruences -/

/-- Two edge lists carry the same undirected edge multiset. -/
def EdgeSetEq (E F : List (ℕ × ℕ)) : Prop :=
  ∀ e, countU E e = countU F e

theorem hasEdgeL_iff_countU {E : List (ℕ × ℕ)} {u v : ℕ} :
    hasEdgeL E u v = true ↔ 1 ≤ countU E (u, v) := by
  rw [hasEdgeL, List.any_eq_true, countU, List.one_le_countP_iff]

theorem hasEdgeL_congr {E F : List (ℕ × ℕ)} (h : EdgeSetEq E F) (u v : ℕ) :
    hasEdgeL E u v = hasEdgeL F u v := by
  by_cases hE : hasEdgeL E u v = true
  · rw [hE]
    exact (hasEdgeL_iff_countU.mpr ((h (u, v)) ▸ hasEdgeL_iff_countU.mp hE)).symm
  · rw [Bool.not_eq_true] at hE
    rw [hE]
    symm
    rw [← Bool.not_eq_true]
    intro hF
    have h1 := hasEdgeL_iff_countU.mp hF
    rw [← h (u, v)] at h1
    have h2 := hasEdgeL_iff_countU.mpr h1
    rw [hE] at h2
    cases h2

theorem adj_congr {E F : List (ℕ × ℕ)} (h : EdgeSetEq E F) {x y : ℕ} :
    Adj E x y ↔ Adj F x y := by
  rw [← hasEdgeL_iff, ← hasEdgeL_iff, hasEdgeL_congr h]

theorem reach_congr {E F : List (ℕ × ℕ)} (h : EdgeSetEq E F) {x y : ℕ} :
    Reach E x y ↔ Reach F x y :=
  ⟨reach_mono fun _ _ ha => (adj_congr h).mp ha,
   reach_mono fun _ _ ha => (adj_congr h).mpr ha⟩

theorem edgeSetEq_removeEdgeL {E F : List (ℕ × ℕ)} (h : EdgeSetEq E F)
    (u v : ℕ) : EdgeSetEq (removeEdgeL E u v) (removeEdgeL F u v) := by
  intro e
  rw [countU_removeEdgeL, countU_removeEdgeL, h e]

theorem nodupU_congr {E F : List (ℕ × ℕ)} (h : EdgeSetEq E F)
    (hnd : NodupU E) : NodupU F := by
  rw [nodupU_iff_countU] at hnd ⊢
  intro e
  rw [← h e]
  exact hnd e

/-!  ### Bridges in a forest -/

theorem removeEdgeL_swap {E : List (ℕ × ℕ)} {u v : ℕ} :
    removeEdgeL E u v = removeEdgeL E v u := by
  rw [removeEdgeL, removeEdgeL]
  refine List.filter_congr fun f _ => ?_
  rw [uMatch_swap_left]

theorem forest_bridge {E : List (ℕ × ℕ)} (hF : IsForest E) {u v : ℕ}
    (h : Adj E u v) : ¬ Reach (removeEdgeL E u v) u v := by
  rcases h with h | h
  · exact hF (u, v) h
  · intro hr
    refine hF (v, u) h ?_
    rw [show (v, u).1 = v from rfl, show (v, u).2 = u from rfl, removeEdgeL_swap]
    exact reach_symm hr

/-- Reachability after appending one edge `g` decomposes: either it
avoids `g`, or it crosses `g` in one of the two directions. -/
theorem reach_append_single_decomp {X : List (ℕ × ℕ)} {g : ℕ × ℕ} {a b : ℕ}
    (h : Reach (X ++ [g]) a b) :
    Reach X a b ∨ (Reach X a g.1 ∧ Reach X g.2 b) ∨
      (Reach X a g.2 ∧ Reach X g.1 b) := by
  induction h using Relation.ReflTransGen.head_induction_on with
  | refl => exact Or.inl reach_refl
  | head hadj _ ih =>
    rename_i x c _
    rcases adj_append_single.mp hadj with hx | hx
    · rcases ih with h1 | ⟨h1, h2⟩ | ⟨h1, h2⟩
      · exact Or.inl (reach_trans (reach_of_adj hx) h1)
      · exact Or.inr (Or.inl ⟨reach_trans (reach_of_adj hx) h1, h2⟩)
      · exact Or.inr (Or.inr ⟨reach_trans (reach_of_adj hx) h1, h2⟩)
    · rcases uMatch_iff.mp hx with ⟨h1, h2⟩ | ⟨h1, h2⟩
      · -- x = g.1, c = g.2
        rcases ih with h3 | ⟨h3, h4⟩ | ⟨h3, h4⟩
        · exact Or.inr (Or.inl ⟨h1 ▸ reach_refl, h2 ▸ h3⟩)
        · exact Or.inr (Or.inl ⟨h1 ▸ reach_refl, h4⟩)
        · exact Or.inl (by rw [show x = g.1 from h1]; exact h4)
      · -- x = g.2, c = g.1
        rcases ih with h3 | ⟨h3, h4⟩ | ⟨h3, h4⟩
        · exact Or.inr (Or.inr ⟨h1 ▸ reach_refl, h2 ▸ h3⟩)
        · exact Or.inl (by rw [show x = g.2 from h1]; exact h4)
        · exact Or.inr (Or.inr ⟨h1 ▸ reach_refl, h4⟩)

/-!  ### The edge swap of `propose` preserves spanning trees

Throughout, `p` is the tree path joining the ends of the fresh edge
`(unew, vnew)` (not itself a tree edge), and the removed edge is the
`i`-th path edge `(uold, vold)`. -/

theorem swap_tree {T : Graph} {p : List ℕ} {i unew vnew uold vold : ℕ}
    (hNodupU : NodupU T.edges) (hForest : IsForest T.edges)
    (hchain : List.Chain' (Adj T.edges) p) (hpnodup : p.Nodup)
    (hp0 : p.getD 0 0 = unew) (hlast : p.getLast? = some vnew)
    (hnew : hasEdgeL T.edges unew vnew = false)
    (hi : i + 1 < p.length)
    (huold : uold = p.getD i 0) (hvold : vold = p.getD (i + 1) 0) :
    (∀ x y, Reach T.edges x y →
        Reach (removeEdgeL T.edges uold vold ++ [(unew, vnew)]) x y) ∧
    IsForest (removeEdgeL T.edges uold vold ++ [(unew, vnew)]) ∧
    (removeEdgeL T.edges uold vold ++ [(unew, vnew)]).length = T.edges.length ∧
    NodupU (removeEdgeL T.edges uold vold ++ [(unew, vnew)]) := by
  have hplen : p ≠ [] := by
    intro h
    rw [h] at hi
    simp at hi
  have hlast' : p.getD (p.length - 1) 0 = vnew := by
    have h := getLast?_eq_getD hplen
    rw [h] at hlast
    exact Option.some.inj hlast
  have hadj_old : Adj T.edges uold vold := by
    rw [huold, hvold]
    exact chain_adj_getD hchain i hi
  have hsurv : ∀ j, j + 1 < p.length → j ≠ i →
      Adj (removeEdgeL T.edges uold vold) (p.getD j 0) (p.getD (j + 1) 0) := by
    intro j hj hne
    refine adj_removeEdgeL.mpr ⟨chain_adj_getD hchain j hj, ?_⟩
    by_contra hc
    rw [Bool.not_eq_false] at hc
    rcases uMatch_iff.mp hc with ⟨h1, h2⟩ | ⟨h1, h2⟩
    · exact hne (nodup_getD_inj hpnodup (by omega) (by omega)
        (by rw [← huold]; exact h1)).symm
    · have e1 : i = j + 1 := nodup_getD_inj hpnodup (by omega) hj
        (by rw [← huold]; exact h1)
      have e2 : i + 1 = j := nodup_getD_inj hpnodup hi (by omega)
        (by rw [← hvold]; exact h2)
      omega
  have hE'adj : ∀ j, j + 1 < p.length → j ≠ i →
      Adj (removeEdgeL T.edges uold vold ++ [(unew, vnew)])
        (p.getD j 0) (p.getD (j + 1) 0) :=
    fun j hj hne => adj_append_single.mpr (Or.inl (hsurv j hj hne))
  have hnewadj : Adj (removeEdgeL T.edges uold vold ++ [(unew, vnew)]) unew vnew :=
    adj_append_single.mpr (Or.inr (uMatch_refl _))
  -- the two path segments, inside the swapped graph and inside T minus
  -- the old edge
  have r1E : Reach (removeEdgeL T.edges uold vold) (p.getD 0 0)
      (p.getD i 0) :=
    reach_segment_skip hsurv 0 i (Nat.zero_le _) (by omega) (Or.inl (le_refl i))
  have r3E : Reach (removeEdgeL T.edges uold vold) (p.getD (i + 1) 0)
      (p.getD (p.length - 1) 0) :=
    reach_segment_skip hsurv (i + 1) (p.length - 1) (by omega) (by omega)
      (Or.inr (le_refl _))
  have r1 : Reach (removeEdgeL T.edges uold vold ++ [(unew, vnew)])
      (p.getD 0 0) (p.getD i 0) :=
    reach_segment_skip hE'adj 0 i (Nat.zero_le _) (by omega) (Or.inl (le_refl i))
  have r3 : Reach (removeEdgeL T.edges uold vold ++ [(unew, vnew)])
      (p.getD (i + 1) 0) (p.getD (p.length - 1) 0) :=
    reach_segment_skip hE'adj (i + 1) (p.length - 1) (by omega) (by omega)
      (Or.inr (le_refl _))
  have hreach_old : Reach (removeEdgeL T.edges uold vold ++ [(unew, vnew)])
      uold vold := by
    have step : Reach (removeEdgeL T.edges uold vold ++ [(unew, vnew)])
        (p.getD i 0) (p.getD (i + 1) 0) := by
      refine reach_trans (reach_symm r1) (reach_trans ?_ (reach_symm r3))
      rw [hp0, hlast']
      exact reach_of_adj hnewadj
    rw [← huold, ← hvold] at step
    exact step
  have htransfer : ∀ x y, Reach T.edges x y →
      Reach (removeEdgeL T.edges uold vold ++ [(unew, vnew)]) x y := by
    refine fun x y h => reach_elim_step ?_ h
    intro a b hab
    by_cases hm : uMatch (uold, vold) (a, b) = true
    · rcases uMatch_iff.mp hm with ⟨h1, h2⟩ | ⟨h1, h2⟩
      · rw [← show uold = a from h1, ← show vold = b from h2]
        exact hreach_old
      · rw [← show vold = a from h2, ← show uold = b from h1]
        exact reach_symm hreach_old
    · rw [Bool.not_eq_true] at hm
      exact reach_of_adj (adj_append_single.mpr
        (Or.inl (adj_removeEdgeL.mpr ⟨hab, hm⟩)))
  have hcount : (removeEdgeL T.edges uold vold ++ [(unew, vnew)]).length =
      T.edges.length := by
    rw [List.length_append]
    have h1 := length_removeEdgeL (E := T.edges) (u := uold) (v := vold)
    have h2 : countU T.edges (uold, vold) = 1 :=
      countU_eq_one_of_adj hNodupU hadj_old
    simp only [List.length_singleton]
    omega
  have hnomatch : ∀ f ∈ T.edges, uMatch (unew, vnew) f = false := by
    intro f hf
    by_contra hc
    rw [Bool.not_eq_false] at hc
    have : hasEdgeL T.edges unew vnew = true := List.any_eq_true.mpr ⟨f, hf, hc⟩
    rw [hnew] at this
    cases this
  have hnodupE' : NodupU (removeEdgeL T.edges uold vold ++ [(unew, vnew)]) := by
    refine List.pairwise_append.mpr ⟨?_, List.pairwise_singleton _ _, ?_⟩
    · exact List.Pairwise.sublist (List.filter_sublist _) hNodupU
    · intro f hf g hg
      rcases mem_removeEdgeL.mp hf with ⟨hfT, _⟩
      rcases List.mem_singleton.mp hg with rfl
      by_contra hc
      rw [Bool.not_eq_false] at hc
      have := hnomatch f hfT
      rw [uMatch_symm hc] at this
      cases this
  refine ⟨htransfer, ?_, hcount, hnodupE'⟩
  intro e he
  rcases List.mem_append.mp he with heold | hsingle
  · -- e is a surviving tree edge
    rcases mem_removeEdgeL.mp heold with ⟨heT, hem⟩
    intro hR
    have hXdef : removeEdgeL (removeEdgeL T.edges uold vold ++ [(unew, vnew)])
        e.1 e.2 =
        removeEdgeL (removeEdgeL T.edges uold vold) e.1 e.2 ++ [(unew, vnew)] := by
      rw [removeEdgeL, List.filter_append]
      congr 1
      have hkeep : uMatch (e.1, e.2) (unew, vnew) = false := by
        by_contra hc
        rw [Bool.not_eq_false] at hc
        have := hnomatch e heT
        have heq : uMatch (unew, vnew) e = true := by
          have := uMatch_symm hc
          rwa [show ((e.1 : ℕ), (e.2 : ℕ)) = e from rfl] at this
        rw [this] at heq
        cases heq
      simp [hkeep]
    rw [hXdef] at hR
    have hliftEold : ∀ a b,
        Adj (removeEdgeL (removeEdgeL T.edges uold vold) e.1 e.2) a b →
        Adj (removeEdgeL T.edges uold vold) a b :=
      fun a b h => (adj_removeEdgeL.mp h).1
    have hliftTe : ∀ a b,
        Adj (removeEdgeL (removeEdgeL T.edges uold vold) e.1 e.2) a b →
        Adj (removeEdgeL T.edges e.1 e.2) a b := by
      intro a b h
      rcases adj_removeEdgeL.mp h with ⟨h1, h2⟩
      rcases adj_removeEdgeL.mp h1 with ⟨h3, _⟩
      exact adj_removeEdgeL.mpr ⟨h3, h2⟩
    have hadj_e : Adj (removeEdgeL T.edges uold vold) e.1 e.2 := by
      left
      rw [show ((e.1 : ℕ), (e.2 : ℕ)) = e from rfl]
      exact heold
    rcases reach_append_single_decomp hR with h1 | ⟨h1, h2⟩ | ⟨h1, h2⟩
    · exact forest_bridge hForest (adj_of_mem heT)
        (reach_mono hliftTe h1)
    · -- crossing (unew, vnew) forward recreates the old tree path
      have c1 : Reach (removeEdgeL T.edges uold vold) uold vold := by
        have step : Reach (removeEdgeL T.edges uold vold)
            (p.getD i 0) (p.getD (i + 1) 0) := by
          refine reach_trans (reach_symm r1E) (reach_trans ?_ (reach_symm r3E))
          rw [hp0, hlast']
          refine reach_trans (reach_symm (reach_mono hliftEold h1)) ?_
          refine reach_trans (reach_of_adj hadj_e) ?_
          exact reach_symm (reach_mono hliftEold h2)
        rw [← huold, ← hvold] at step
        exact step
      exact forest_bridge hForest hadj_old c1
    · have c1 : Reach (removeEdgeL T.edges uold vold) uold vold := by
        have step : Reach (removeEdgeL T.edges uold vold)
            (p.getD i 0) (p.getD (i + 1) 0) := by
          refine reach_trans (reach_symm r1E) (reach_trans ?_ (reach_symm r3E))
          rw [hp0, hlast']
          refine reach_trans (reach_mono hliftEold h2) ?_
          refine reach_trans (reach_of_adj (adj_symm hadj_e)) ?_
          exact reach_mono hliftEold h1
        rw [← huold, ← hvold] at step
        exact step
      exact forest_bridge hForest hadj_old c1
  · -- e is the added edge
    rcases List.mem_singleton.mp hsingle with rfl
    intro hR
    have hXdef : removeEdgeL (removeEdgeL T.edges uold vold ++ [(unew, vnew)])
        unew vnew = removeEdgeL T.edges uold vold := by
      rw [removeEdgeL, List.filter_append]
      have h1 : List.filter (fun f => !uMatch (unew, vnew) f)
          (removeEdgeL T.edges uold vold) = removeEdgeL T.edges uold vold := by
        refine List.filter_eq_self.mpr ?_
        intro f hf
        rcases mem_removeEdgeL.mp hf with ⟨hfT, _⟩
        rw [hnomatch f hfT]
        rfl
      have h2 : List.filter (fun f => !uMatch (unew, vnew) f) [(unew, vnew)] =
          [] := by
        simp [uMatch_refl]
      rw [h1, h2, List.append_nil]
    rw [hXdef] at hR
    have c1 : Reach (removeEdgeL T.edges uold vold) uold vold := by
      have step : Reach (removeEdgeL T.edges uold vold)
          (p.getD i 0) (p.getD (i + 1) 0) := by
        refine reach_trans (reach_symm r1E) (reach_trans ?_ (reach_symm r3E))
        rw [hp0, hlast']
        exact hR
      rw [← huold, ← hvold] at step
      exact step
    exact forest_bridge hForest hadj_old c1

/-!  ### Unfolding `propose` -/

theorem removeEdge_eq_some {g : Graph} {u v : ℕ} {g' : Graph}
    (h : g.removeEdge u v = some g') :
    g.hasEdge u v = true ∧ g' = ⟨g.nodes, removeEdgeL g.edges u v⟩ := by
  rw [Graph.removeEdge] at h
  by_cases hc : g.hasEdge u v = true
  · rw [if_pos hc] at h
    exact ⟨hc, (Option.some.inj h).symm⟩
  · rw [if_neg hc] at h
    cases h

theorem insertNode_of_mem {ns : List ℕ} {x : ℕ} (h : x ∈ ns) :
    insertNode ns x = ns := by
  rw [insertNode, if_pos h]

theorem mem_insertNode_of_mem {ns : List ℕ} {x a : ℕ} (h : a ∈ ns) :
    a ∈ insertNode ns x := by
  rw [insertNode]
  by_cases hx : x ∈ ns
  · rwa [if_pos hx]
  · rw [if_neg hx]
    exact List.mem_append.mpr (Or.inl h)

theorem addEdge_of_not_present {g : Graph} {u v : ℕ}
    (h : g.hasEdge u v = false) :
    g.addEdge u v =
      ⟨insertNode (insertNode g.nodes u) v, g.edges ++ [(u, v)]⟩ := by
  rw [Graph.addEdge, if_neg (by rw [h]; exact Bool.false_ne_true)]

theorem chooseNewEdge_inv {base T : Graph} :
    ∀ {draws : List ℕ} {c cnew : ℕ × ℕ},
      chooseNewEdge base T c draws = some cnew →
      T.hasEdge cnew.1 cnew.2 = false ∧ (cnew = c ∨ cnew ∈ base.edges) := by
  intro draws
  induction draws with
  | nil =>
    intro c cnew h
    rw [chooseNewEdge] at h
    by_cases hc : T.hasEdge c.1 c.2 = false
    · rw [if_pos hc] at h
      rcases Option.some.inj h with rfl
      exact ⟨hc, Or.inl rfl⟩
    · rw [if_neg hc] at h
      cases h
  | cons r rs ih =>
    intro c cnew h
    rw [chooseNewEdge] at h
    by_cases hc : T.hasEdge c.1 c.2 = false
    · rw [if_pos hc] at h
      rcases Option.some.inj h with rfl
      exact ⟨hc, Or.inl rfl⟩
    · rw [if_neg hc] at h
      rcases hget : base.edges.get? r with _ | c'
      · rw [hget] at h
        cases h
      · rw [hget] at h
        rcases ih h with ⟨h1, h2⟩
        refine ⟨h1, Or.inr ?_⟩
        rcases h2 with rfl | h2
        · exact List.get?_mem hget
        · exact h2

theorem chooseNewEdge_done {base T : Graph} {c : ℕ × ℕ} {draws : List ℕ}
    (hc : T.hasEdge c.1 c.2 = false) :
    chooseNewEdge base T c draws = some c := by
  cases draws with
  | nil => rw [chooseNewEdge, if_pos hc]
  | cons r rs => rw [chooseNewEdge, if_pos hc]

/-- The resampling loop returns the first drawn edge that is not in the
tree; the draws before it all hit tree edges. -/
theorem chooseNewEdge_first {base T : Graph} :
    ∀ {draws : List ℕ} {c cnew : ℕ × ℕ},
      T.hasEdge c.1 c.2 = true →
      chooseNewEdge base T c draws = some cnew →
      ∃ pre r post, draws = pre ++ r :: post ∧
        (∀ r' ∈ pre, ∃ e, base.edges.get? r' = some e ∧
          T.hasEdge e.1 e.2 = true) ∧
        base.edges.get? r = some cnew ∧ T.hasEdge cnew.1 cnew.2 = false := by
  intro draws
  induction draws with
  | nil =>
    intro c cnew hc h
    rw [chooseNewEdge, if_neg (by simp [hc])] at h
    cases h
  | cons r rs ih =>
    intro c cnew hc h
    rw [chooseNewEdge, if_neg (by simp [hc])] at h
    rcases hget : base.edges.get? r with _ | c'
    · rw [hget] at h
      cases h
    · rw [hget] at h
      have h2 : chooseNewEdge base T c' rs = some cnew := h
      by_cases hc' : T.hasEdge c'.1 c'.2 = false
      · rw [chooseNewEdge_done hc'] at h2
        rcases Option.some.inj h2 with rfl
        exact ⟨[], r, rs, rfl, by simp, hget, hc'⟩
      · rw [Bool.not_eq_false] at hc'
        rcases ih hc' h2 with ⟨pre, r0, post, hsplit, hpre, hr0, hfin⟩
        refine ⟨r :: pre, r0, post, by rw [hsplit]; rfl, ?_, hr0, hfin⟩
        intro r' hr'
        rcases List.mem_cons.mp hr' with rfl | hr'
        · exact ⟨c', hget, hc'⟩
        · exact hpre r' hr'

theorem propose_inv {base T : Graph} {draws : List ℕ} {i : ℕ}
    {T' : Graph} {rec : ProposalRecord}
    (h : propose base T draws i = some (T', rec)) :
    ∃ c0, T.edges.head? = some c0 ∧
      chooseNewEdge base T c0 draws = some (rec.unew, rec.vnew) ∧
      findPath T.edges (T.nodes.length + 1) [] rec.unew rec.vnew =
        some rec.path ∧
      rec.path.get? i = some rec.uold ∧
      rec.path.get? (i + 1) = some rec.vold ∧
      T.hasEdge rec.uold rec.vold = true ∧
      T' = Graph.addEdge ⟨T.nodes, removeEdgeL T.edges rec.uold rec.vold⟩
        rec.unew rec.vnew := by
  rw [propose] at h
  simp only [bind, Option.bind_eq_some, Option.some.injEq, Prod.mk.injEq] at h
  rcases h with ⟨c0, hc0, cnew, hcnew, p, hp, uold, huold, vold, hvold,
    T1, hT1, hT', hrec⟩
  rcases removeEdge_eq_some hT1 with ⟨hhas, rfl⟩
  subst hrec
  refine ⟨c0, hc0, hcnew, hp, huold, hvold, hhas, hT'.symm⟩

/-!  ### From `propose` to the swap theorem -/

theorem head?_mem {l : List (ℕ × ℕ)} {a : ℕ × ℕ} (h : l.head? = some a) :
    a ∈ l := by
  cases l with
  | nil => cases h
  | cons b l =>
    rw [List.head?_cons] at h
    rcases Option.some.inj h with rfl
    exact List.mem_cons_self _ _

theorem getD_of_get? {l : List ℕ} {n : ℕ} {x : ℕ} (h : l.get? n = some x) :
    l.getD n 0 = x := by
  rcases List.get?_eq_some.mp h with ⟨hb, hget⟩
  rw [List.getD_eq_getElem _ _ hb]
  exact hget

theorem lt_length_of_get? {l : List ℕ} {n : ℕ} {x : ℕ}
    (h : l.get? n = some x) : n < l.length :=
  (List.get?_eq_some.mp h).1

theorem not_hasEdge_nomatch {E : List (ℕ × ℕ)} {u v : ℕ}
    (h : hasEdgeL E u v = false) : ∀ f ∈ E, uMatch (u, v) f = false := by
  intro f hf
  by_contra hc
  rw [Bool.not_eq_false] at hc
  have : hasEdgeL E u v = true := List.any_eq_true.mpr ⟨f, hf, hc⟩
  rw [h] at this
  cases this

theorem hasEdgeL_false_of_countU {E : List (ℕ × ℕ)} {u v : ℕ}
    (h : countU E (u, v) = 0) : hasEdgeL E u v = false := by
  by_contra hc
  rw [Bool.not_eq_false] at hc
  have := hasEdgeL_iff_countU.mp hc
  omega

theorem hasEdgeL_spanning_trans {base : Graph} {E : List (ℕ × ℕ)}
    (hsub : ∀ e ∈ E, hasEdgeL base.edges e.1 e.2 = true) {x y : ℕ}
    (h : hasEdgeL E x y = true) : hasEdgeL base.edges x y = true := by
  rcases List.any_eq_true.mp h with ⟨f, hf, hm⟩
  rcases List.any_eq_true.mp (hsub f hf) with ⟨g, hg, hmg⟩
  exact List.any_eq_true.mpr ⟨g, hg, uMatch_trans hm hmg⟩

theorem wf_of_spanning {base T : Graph} (hWFb : WF base)
    (hst : IsSpanningTree base T) : WF T := by
  intro e he
  have hbase := hst.2.1 e he
  rcases List.any_eq_true.mp hbase with ⟨g, hg, hm⟩
  rcases hWFb g hg with ⟨h1, h2⟩
  rw [hst.1]
  rcases uMatch_iff.mp hm with ⟨ha, hb⟩ | ⟨ha, hb⟩
  · rw [ha, hb]; exact ⟨h1, h2⟩
  · rw [ha, hb]; exact ⟨h2, h1⟩

/-- What `propose` actually built: the old edge dropped, the new edge
appended, nodes untouched. -/
theorem propose_result_eq {base T : Graph} {draws : List ℕ} {i : ℕ}
    {T' : Graph} {rec : ProposalRecord}
    (hprop : propose base T draws i = some (T', rec))
    (hun : rec.unew ∈ T.nodes) (hvn : rec.vnew ∈ T.nodes) :
    T'.nodes = T.nodes ∧
    T'.edges = removeEdgeL T.edges rec.uold rec.vold ++
      [(rec.unew, rec.vnew)] ∧
    T.hasEdge rec.unew rec.vnew = false := by
  rcases propose_inv hprop with ⟨c0, hc0, hcnew, hp, hgu, hgv, hhas, hT'⟩
  have hnew : T.hasEdge rec.unew rec.vnew = false :=
    (chooseNewEdge_inv hcnew).1
  have hnew1 : hasEdgeL (removeEdgeL T.edges rec.uold rec.vold)
      rec.unew rec.vnew = false := by
    by_contra hc
    rw [Bool.not_eq_false] at hc
    rcases List.any_eq_true.mp hc with ⟨f, hf, hm⟩
    rcases mem_removeEdgeL.mp hf with ⟨hfT, _⟩
    have : T.hasEdge rec.unew rec.vnew = true :=
      List.any_eq_true.mpr ⟨f, hfT, hm⟩
    rw [hnew] at this
    cases this
  rw [hT', addEdge_of_not_present (g := ⟨T.nodes, removeEdgeL T.edges rec.uold rec.vold⟩) hnew1]
  exact ⟨by simp [insertNode_of_mem hun, insertNode_of_mem hvn], rfl, hnew⟩

/-- The added edge comes from the base graph's edge list. -/
theorem propose_new_edge_mem {base T : Graph} {draws : List ℕ} {i : ℕ}
    {T' : Graph} {rec : ProposalRecord}
    (hprop : propose base T draws i = some (T', rec)) :
    (rec.unew, rec.vnew) ∈ base.edges ∧
    T.hasEdge rec.unew rec.vnew = false := by
  rcases propose_inv hprop with ⟨c0, hc0, hcnew, _, _, _, _, _⟩
  rcases chooseNewEdge_inv hcnew with ⟨hnew, hcase⟩
  refine ⟨?_, hnew⟩
  rcases hcase with heq | hmem
  · exfalso
    have hc0mem : c0 ∈ T.edges := head?_mem hc0
    have : T.hasEdge c0.1 c0.2 = true := hasEdgeL_of_mem hc0mem
    rw [← heq] at this
    rw [show ((rec.unew, rec.vnew).1, (rec.unew, rec.vnew).2) =
      (rec.unew, rec.vnew) from rfl] at this
    rw [hnew] at this
    cases this
  · exact hmem

/-- Endpoints of the added edge are nodes of the spanning tree. -/
theorem propose_new_edge_nodes {base T : Graph} {draws : List ℕ} {i : ℕ}
    {T' : Graph} {rec : ProposalRecord} (hWFb : WF base)
    (hnodes : T.nodes = base.nodes)
    (hprop : propose base T draws i = some (T', rec)) :
    rec.unew ∈ T.nodes ∧ rec.vnew ∈ T.nodes := by
  rcases propose_new_edge_mem hprop with ⟨hmem, _⟩
  rcases hWFb _ hmem with ⟨h1, h2⟩
  rw [hnodes]
  exact ⟨h1, h2⟩

/-- The facts delivered by the tree path computed inside `propose`. -/
theorem propose_path_facts {base T : Graph} {draws : List ℕ} {i : ℕ}
    {T' : Graph} {rec : ProposalRecord}
    (hprop : propose base T draws i = some (T', rec)) :
    List.Chain' (Adj T.edges) rec.path ∧ rec.path.Nodup ∧
    rec.path.getD 0 0 = rec.unew ∧ rec.path.getLast? = some rec.vnew ∧
    i + 1 < rec.path.length ∧
    rec.uold = rec.path.getD i 0 ∧ rec.vold = rec.path.getD (i + 1) 0 := by
  rcases propose_inv hprop with ⟨c0, hc0, hcnew, hp, hgu, hgv, hhas, hT'⟩
  rcases findPath_spec _ hp with ⟨q, hq, hchain, hlast, _, hnodup⟩
  refine ⟨hchain, hnodup, ?_, hlast, lt_length_of_get? hgv,
    (getD_of_get? hgu).symm, (getD_of_get? hgv).symm⟩
  rw [hq, List.getD_cons_zero]

/-- `propose` on a spanning tree yields a spanning tree (the accepted
side of an iteration). -/
theorem propose_spanning {base T : Graph} {draws : List ℕ} {i : ℕ}
    {T' : Graph} {rec : ProposalRecord}
    (hWFb : WF base) (hst : IsSpanningTree base T)
    (hprop : propose base T draws i = some (T', rec)) :
    IsSpanningTree base T' := by
  rcases hst with ⟨hnodes, hsub, hnodupU, hconn, hforest, hcount⟩
  rcases propose_new_edge_nodes hWFb hnodes hprop with ⟨hun, hvn⟩
  rcases propose_result_eq hprop hun hvn with ⟨hN, hE, hnew⟩
  rcases propose_path_facts hprop with ⟨hchain, hpnodup, hp0, hlast, hi,
    huold, hvold⟩
  rcases propose_new_edge_mem hprop with ⟨hmem, _⟩
  have hswap := swap_tree hnodupU hforest hchain hpnodup hp0 hlast hnew hi
    huold hvold
  rcases hswap with ⟨htransfer, hforest', hcount', hnodup'⟩
  refine ⟨?_, ?_, ?_, ?_, ?_, ?_⟩
  · rw [hN, hnodes]
  · intro e he
    rw [hE] at he
    rcases List.mem_append.mp he with h | h
    · rcases mem_removeEdgeL.mp h with ⟨hT, _⟩
      exact hsub e hT
    · rcases List.mem_singleton.mp h with rfl
      exact hasEdgeL_of_mem hmem
  · rw [hE]
    exact hnodup'
  · intro x hx y hy
    rw [hN] at hx hy
    rw [hE]
    exact htransfer x y (hconn x hx y hy)
  · rw [hE]
    exact hforest'
  · rw [hE, hN, hcount', hcount]

/-- `reject` undoes `propose` exactly: the edge multiset, the node list
and the edge count return to their pre-proposal values. -/
theorem reject_after_propose {base T : Graph} {draws : List ℕ} {i : ℕ}
    {T' : Graph} {rec : ProposalRecord}
    (hWFb : WF base) (hst : IsSpanningTree base T)
    (hprop : propose base T draws i = some (T', rec)) :
    ∃ Tr, reject T' rec = some Tr ∧ Tr.nodes = T.nodes ∧
      Tr.edges = removeEdgeL T.edges rec.uold rec.vold ++
        [(rec.uold, rec.vold)] ∧
      EdgeSetEq Tr.edges T.edges ∧ Tr.edges.length = T.edges.length := by
  have hWFT : WF T := wf_of_spanning hWFb hst
  rcases propose_new_edge_nodes hWFb hst.1 hprop with ⟨hun, hvn⟩
  rcases propose_result_eq hprop hun hvn with ⟨hN, hE, hnew⟩
  rcases propose_inv hprop with ⟨c0, hc0, hcnew, hp, hgu, hgv, hhas, hT'⟩
  have hadj_old : Adj T.edges rec.uold rec.vold := hasEdgeL_iff.mp hhas
  have hnodupU := hst.2.2.1
  -- the old pair does not match the new pair
  have hmold : uMatch (rec.uold, rec.vold) (rec.unew, rec.vnew) = false := by
    by_contra hc
    rw [Bool.not_eq_false] at hc
    have h1 : hasEdgeL T.edges rec.unew rec.vnew = true := by
      rcases List.any_eq_true.mp hhas with ⟨f, hf, hm⟩
      exact List.any_eq_true.mpr ⟨f, hf, uMatch_trans (uMatch_symm hc) hm⟩
    rw [show T.hasEdge rec.unew rec.vnew = hasEdgeL T.edges rec.unew rec.vnew
      from rfl] at hnew
    rw [hnew] at h1
    cases h1
  -- the old endpoints are nodes
  have holdnodes : rec.uold ∈ T.nodes ∧ rec.vold ∈ T.nodes := by
    rcases hadj_old with h | h
    · exact hWFT _ h
    · rcases hWFT _ h with ⟨h1, h2⟩
      exact ⟨h2, h1⟩
  -- add back the old edge: it is absent from the proposed tree
  have habsent : T'.hasEdge rec.uold rec.vold = false := by
    rw [show T'.hasEdge rec.uold rec.vold =
      hasEdgeL T'.edges rec.uold rec.vold from rfl, hE]
    refine hasEdgeL_false_of_countU ?_
    rw [countU_append, countU_removeEdgeL, if_pos (uMatch_refl _)]
    rw [show countU [(rec.unew, rec.vnew)] (rec.uold, rec.vold) =
      if uMatch (rec.uold, rec.vold) (rec.unew, rec.vnew) = true then 1 else 0
      from by rw [countU_cons]; simp [countU], hmold]
    simp
  have hT2 : (T'.addEdge rec.uold rec.vold) =
      ⟨T'.nodes, T'.edges ++ [(rec.uold, rec.vold)]⟩ := by
    rw [addEdge_of_not_present habsent]
    congr 1
    rw [insertNode_of_mem (show rec.vold ∈ insertNode T'.nodes rec.uold from
        mem_insertNode_of_mem (by rw [hN]; exact holdnodes.2)),
      insertNode_of_mem (show rec.uold ∈ T'.nodes by rw [hN]; exact holdnodes.1)]
  -- now remove the new edge: it is present
  have hpresent : hasEdgeL (T'.edges ++ [(rec.uold, rec.vold)])
      rec.unew rec.vnew = true := by
    rw [hE]
    refine List.any_eq_true.mpr ⟨(rec.unew, rec.vnew), ?_, uMatch_refl _⟩
    refine List.mem_append.mpr (Or.inl (List.mem_append.mpr (Or.inr ?_)))
    exact List.mem_singleton.mpr rfl
  have horem : ∀ f ∈ removeEdgeL T.edges rec.uold rec.vold,
      uMatch (rec.unew, rec.vnew) f = false := by
    intro f hf
    rcases mem_removeEdgeL.mp hf with ⟨hfT, _⟩
    exact not_hasEdge_nomatch hnew f hfT
  refine ⟨⟨(T'.addEdge rec.uold rec.vold).nodes,
    removeEdgeL (T'.addEdge rec.uold rec.vold).edges rec.unew rec.vnew⟩,
    ?_, ?_, ?_, ?_, ?_⟩
  · rw [reject, Graph.removeEdge]
    rw [show (T'.addEdge rec.uold rec.vold).hasEdge rec.unew rec.vnew =
      hasEdgeL (T'.addEdge rec.uold rec.vold).edges rec.unew rec.vnew from rfl]
    rw [hT2]
    rw [if_pos hpresent]
  · rw [hT2, hN]
  · rw [hT2]
    show removeEdgeL (T'.edges ++ [(rec.uold, rec.vold)]) rec.unew rec.vnew =
      removeEdgeL T.edges rec.uold rec.vold ++ [(rec.uold, rec.vold)]
    rw [hE, removeEdgeL, List.filter_append, List.filter_append]
    have h1 : List.filter (fun f => !uMatch (rec.unew, rec.vnew) f)
        (removeEdgeL T.edges rec.uold rec.vold) =
        removeEdgeL T.edges rec.uold rec.vold := by
      refine List.filter_eq_self.mpr fun f hf => ?_
      rw [horem f hf]
      rfl
    have h2 : List.filter (fun f => !uMatch (rec.unew, rec.vnew) f)
        [(rec.unew, rec.vnew)] = [] := by
      simp [uMatch_refl]
    have h3 : List.filter (fun f => !uMatch (rec.unew, rec.vnew) f)
        [(rec.uold, rec.vold)] = [(rec.uold, rec.vold)] := by
      have : uMatch (rec.unew, rec.vnew) (rec.uold, rec.vold) = false := by
        by_contra hc
        rw [Bool.not_eq_false] at hc
        have := uMatch_symm hc
        rw [hmold] at this
        cases this
      simp [this]
    rw [h1, h2, h3, List.append_nil]
  · rw [hT2]
    show EdgeSetEq (removeEdgeL (T'.edges ++ [(rec.uold, rec.vold)])
      rec.unew rec.vnew) T.edges
    intro e
    rw [hE]
    rw [countU_removeEdgeL, countU_append, countU_append, countU_removeEdgeL]
    by_cases hme : uMatch (rec.unew, rec.vnew) e = true
    · rw [if_pos hme]
      -- e is the new pair: absent from T
      have : countU T.edges e = 0 := by
        rw [← countU_congr_of_uMatch hme]
        by_contra hc
        have h1 : 1 ≤ countU T.edges (rec.unew, rec.vnew) := by omega
        have := hasEdgeL_iff_countU.mpr h1
        rw [show T.hasEdge rec.unew rec.vnew =
          hasEdgeL T.edges rec.unew rec.vnew from rfl] at hnew
        rw [hnew] at this
        cases this
      rw [this]
    · rw [if_neg hme]
      by_cases hmo : uMatch (rec.uold, rec.vold) e = true
      · rw [if_pos hmo]
        have h1 : countU [(rec.unew, rec.vnew)] e = 0 := by
          rw [countU_cons]
          have : uMatch e (rec.unew, rec.vnew) = false := by
            by_contra hc
            rw [Bool.not_eq_false] at hc
            exact hme (by rw [uMatch_symm hc])
          rw [this]
          simp [countU]
        have h2 : countU [(rec.uold, rec.vold)] e = 1 := by
          rw [countU_cons]
          rw [uMatch_symm hmo]
          simp [countU]
        rw [h1, h2]
        have h3 : countU T.edges e = countU T.edges (rec.uold, rec.vold) :=
          countU_congr_of_uMatch (uMatch_symm hmo)
        rw [h3, countU_eq_one_of_adj hnodupU hadj_old]
      · rw [if_neg hmo]
        have h1 : countU [(rec.unew, rec.vnew)] e = 0 := by
          rw [countU_cons]
          have : uMatch e (rec.unew, rec.vnew) = false := by
            by_contra hc
            rw [Bool.not_eq_false] at hc
            exact hme (by rw [uMatch_symm hc])
          rw [this]
          simp [countU]
        have h2 : countU [(rec.uold, rec.vold)] e = 0 := by
          rw [countU_cons]
          have : uMatch e (rec.uold, rec.vold) = false := by
            by_contra hc
            rw [Bool.not_eq_false] at hc
            exact hmo (by rw [uMatch_symm hc])
          rw [this]
          simp [countU]
        rw [h1, h2]
        omega
  · rw [hT2]
    show (removeEdgeL (T'.edges ++ [(rec.uold, rec.vold)])
      rec.unew rec.vnew).length = T.edges.length
    rw [hE, removeEdgeL, List.filter_append, List.filter_append]
    have h1 : List.filter (fun f => !uMatch (rec.unew, rec.vnew) f)
        (removeEdgeL T.edges rec.uold rec.vold) =
        removeEdgeL T.edges rec.uold rec.vold := by
      refine List.filter_eq_self.mpr fun f hf => ?_
      rw [horem f hf]
      rfl
    have h2 : List.filter (fun f => !uMatch (rec.unew, rec.vnew) f)
        [(rec.unew, rec.vnew)] = [] := by
      simp [uMatch_refl]
    have h3 : List.filter (fun f => !uMatch (rec.unew, rec.vnew) f)
        [(rec.uold, rec.vold)] = [(rec.uold, rec.vold)] := by
      have : uMatch (rec.unew, rec.vnew) (rec.uold, rec.vold) = false := by
        by_contra hc
        rw [Bool.not_eq_false] at hc
        have := uMatch_symm hc
        rw [hmold] at this
        cases this
      simp [this]
    rw [h1, h2, h3, List.append_nil, List.length_append]
    have h4 := length_removeEdgeL (E := T.edges) (u := rec.uold) (v := rec.vold)
    have h5 : countU T.edges (rec.uold, rec.vold) = 1 :=
      countU_eq_one_of_adj hnodupU hadj_old
    simp only [List.length_singleton]
    omega

theorem forest_congr {E F : List (ℕ × ℕ)} (h : EdgeSetEq E F)
    (hF : IsForest E) : IsForest F := by
  intro e he hR
  have hadjF : Adj F e.1 e.2 := adj_of_mem he
  have hadjE : Adj E e.1 e.2 := (adj_congr h).mpr hadjF
  refine forest_bridge hF hadjE ?_
  exact (reach_congr (edgeSetEq_removeEdgeL h e.1 e.2)).mpr hR

/-- A graph with the same node list and the same undirected edge
multiset as a spanning tree is itself a spanning tree. -/
theorem spanning_congr {base T U : Graph}
    (hst : IsSpanningTree base T) (hnodes : U.nodes = T.nodes)
    (heq : EdgeSetEq U.edges T.edges)
    (hlen : U.edges.length = T.edges.length) :
    IsSpanningTree base U := by
  rcases hst with ⟨h1, h2, h3, h4, h5, h6⟩
  refine ⟨by rw [hnodes, h1], ?_, ?_, ?_, ?_, ?_⟩
  · intro e he
    have hU : hasEdgeL U.edges e.1 e.2 = true := hasEdgeL_of_mem he
    rw [hasEdgeL_congr heq] at hU
    exact hasEdgeL_spanning_trans h2 hU
  · exact nodupU_congr (fun e => (heq e).symm) h3
  · intro x hx y hy
    rw [hnodes] at hx hy
    exact (reach_congr heq).mpr (h4 x hx y hy)
  · exact forest_congr (fun e => (heq e).symm) h5
  · rw [hlen, hnodes, h6]

/-!  ### Decidable checker for the spanning-tree predicate -/

theorem isSpanningTree_of_b {base T : Graph}
    (h : isSpanningTreeb base T = true) : IsSpanningTree base T := by
  rw [isSpanningTreeb] at h
  simp only [Bool.and_eq_true, decide_eq_true_eq, List.all_eq_true] at h
  obtain ⟨⟨⟨⟨⟨h1, h2⟩, h3⟩, h4⟩, h5⟩, h6⟩ := h
  exact ⟨h1, h2, h3, connectedb_iff.mp h4, forestb_iff.mp h5, h6⟩

theorem wf_of_b {g : Graph} (h : wfb g = true) : WF g := by
  intro e he
  have h1 := List.all_eq_true.mp h e he
  rw [Bool.and_eq_true, decide_eq_true_eq, decide_eq_true_eq] at h1
  exact h1

/-!  ### Remaining support for the claims -/

theorem reach_subset_nodes {g : Graph} (hWF : WF g) {root y : ℕ}
    (hroot : root ∈ g.nodes) (h : Reach g.edges root y) : y ∈ g.nodes := by
  induction h with
  | refl => exact hroot
  | tail _ hstep ih =>
    rcases hstep with h | h
    · exact (hWF _ h).2
    · exact (hWF _ h).1

theorem get_eq_getD {l : List ℕ} {n : ℕ} (h : n < l.length) :
    l.get ⟨n, h⟩ = l.getD n 0 := by
  rw [List.getD_eq_getElem _ _ h]
  rfl

/-- Edge part of what `propose` built (no node hypotheses needed). -/
theorem propose_result_edges {base T : Graph} {draws : List ℕ} {i : ℕ}
    {T' : Graph} {rec : ProposalRecord}
    (hprop : propose base T draws i = some (T', rec)) :
    T'.edges = removeEdgeL T.edges rec.uold rec.vold ++
      [(rec.unew, rec.vnew)] ∧
    T.hasEdge rec.unew rec.vnew = false := by
  rcases propose_inv hprop with ⟨c0, hc0, hcnew, hp, hgu, hgv, hhas, hT'⟩
  have hnew : T.hasEdge rec.unew rec.vnew = false :=
    (chooseNewEdge_inv hcnew).1
  have hnew1 : hasEdgeL (removeEdgeL T.edges rec.uold rec.vold)
      rec.unew rec.vnew = false := by
    by_contra hc
    rw [Bool.not_eq_false] at hc
    rcases List.any_eq_true.mp hc with ⟨f, hf, hm⟩
    rcases mem_removeEdgeL.mp hf with ⟨hfT, _⟩
    have : T.hasEdge rec.unew rec.vnew = true :=
      List.any_eq_true.mpr ⟨f, hfT, hm⟩
    rw [hnew] at this
    cases this
  rw [hT', addEdge_of_not_present (g := ⟨T.nodes, removeEdgeL T.edges rec.uold rec.vold⟩) hnew1]
  exact ⟨rfl, hnew⟩

/-- The removed edge and the added edge are distinct unordered pairs. -/
theorem propose_old_ne_new {base T : Graph} {draws : List ℕ} {i : ℕ}
    {T' : Graph} {rec : ProposalRecord}
    (hprop : propose base T draws i = some (T', rec)) :
    uMatch (rec.uold, rec.vold) (rec.unew, rec.vnew) = false := by
  rcases propose_inv hprop with ⟨c0, hc0, hcnew, hp, hgu, hgv, hhas, hT'⟩
  have hnew : T.hasEdge rec.unew rec.vnew = false :=
    (chooseNewEdge_inv hcnew).1
  by_contra hc
  rw [Bool.not_eq_false] at hc
  rcases List.any_eq_true.mp hhas with ⟨f, hf, hm⟩
  have : T.hasEdge rec.unew rec.vnew = true :=
    List.any_eq_true.mpr ⟨f, hf, uMatch_trans (uMatch_symm hc) hm⟩
  rw [hnew] at this
  cases this

/-- With the loop and path stages fixed, `propose` succeeds exactly for
the removal indices `randrange(len(path)-1)` can produce. -/
theorem propose_isSome_of_index {base T : Graph} {draws : List ℕ}
    {c0 cnew : ℕ × ℕ} {p : List ℕ} {j : ℕ}
    (hc0 : T.edges.head? = some c0)
    (hcnew : chooseNewEdge base T c0 draws = some cnew)
    (hp : findPath T.edges (T.nodes.length + 1) [] cnew.1 cnew.2 = some p)
    (hj : j + 1 < p.length) :
    (propose base T draws j).isSome = true := by
  rcases findPath_spec _ hp with ⟨q, hq, hchain, _, _, _⟩
  have hadj : Adj T.edges (p.getD j 0) (p.getD (j + 1) 0) :=
    chain_adj_getD hchain j hj
  have hhasj : T.hasEdge (p.get ⟨j, by omega⟩) (p.get ⟨j + 1, hj⟩) = true := by
    rw [get_eq_getD, get_eq_getD]
    exact hasEdgeL_iff.mpr hadj
  rw [propose]
  simp only [bind, hc0, Option.some_bind, hcnew, hp]
  rw [List.get?_eq_get (show j < p.length by omega), List.get?_eq_get hj]
  simp only [Option.some_bind]
  rw [Graph.removeEdge, if_pos hhasj]
  simp only [Option.some_bind]
  rfl

theorem propose_none_of_index {base T : Graph} {draws : List ℕ}
    {c0 cnew : ℕ × ℕ} {p : List ℕ} {j : ℕ}
    (hc0 : T.edges.head? = some c0)
    (hcnew : chooseNewEdge base T c0 draws = some cnew)
    (hp : findPath T.edges (T.nodes.length + 1) [] cnew.1 cnew.2 = some p)
    (hj : p.length ≤ j + 1) :
    propose base T draws j = none := by
  rw [propose]
  simp only [bind, hc0, Option.some_bind, hcnew, hp]
  rcases Nat.lt_or_ge j p.length with hlt | hge
  · rw [List.get?_eq_get hlt]
    simp only [Option.some_bind]
    rw [List.get?_eq_none.mpr (by omega)]
    rfl
  · rw [List.get?_eq_none.mpr (by omega)]
    rfl

/-- The old edge is gone from the proposed tree (before `reject` adds
it back). -/
theorem propose_old_absent {base T : Graph} {draws : List ℕ} {i : ℕ}
    {T' : Graph} {rec : ProposalRecord}
    (hprop : propose base T draws i = some (T', rec)) :
    T'.hasEdge rec.uold rec.vold = false := by
  rcases propose_result_edges hprop with ⟨hE, hnew⟩
  have hmold := propose_old_ne_new hprop
  rw [show T'.hasEdge rec.uold rec.vold =
    hasEdgeL T'.edges rec.uold rec.vold from rfl, hE]
  refine hasEdgeL_false_of_countU ?_
  rw [countU_append, countU_removeEdgeL, if_pos (uMatch_refl _)]
  rw [show countU [(rec.unew, rec.vnew)] (rec.uold, rec.vold) =
    if uMatch (rec.uold, rec.vold) (rec.unew, rec.vnew) = true then 1 else 0
    from by rw [countU_cons]; simp [countU], hmold]
  simp

/-- The triangle is not a forest: dropping one of its edges leaves its
ends joined through the third vertex. -/
theorem tri_not_forest : ¬ IsForest triBase.edges := by
  intro h
  have h2 := h (0, 1) (by decide)
  refine h2 ?_
  have e1 : Adj (removeEdgeL triBase.edges 0 1) 0 2 := Or.inl (by decide)
  have e2 : Adj (removeEdgeL triBase.edges 0 1) 2 1 := Or.inr (by decide)
  exact reach_trans (reach_of_adj e1) (reach_of_adj e2)

/-- In the disconnected four-node graph, node 2 is unreachable from
node 0. -/
theorem four_not_reach : ¬ Reach [(0, 1), (2, 3)] 0 2 :=
  not_reach_of_closed
    (closedb_closed (show closedb [(0, 1), (2, 3)] [0, 1] = true by decide))
    (by decide) (by decide)

/-!  ## The claims -/

/-- C1: for every connected base graph `G` and every spanning tree `T`
of `G`, after each completed sampler iteration, accepted or rejected,
the value is again a spanning tree: one execution of `propose` (remove
the chosen path edge, add the chosen non-tree edge) yields a graph with
exactly `|nodes| - 1` edges, connected and acyclic, and should the
proposal be rejected, the reverted graph is a spanning tree as well. -/
theorem claim_C1_tree_invariant {base T : Graph} {draws : List ℕ} {i : ℕ}
    {T' : Graph} {rec : ProposalRecord}
    (hWFb : WF base) (hst : IsSpanningTree base T)
    (hprop : propose base T draws i = some (T', rec)) :
    (IsSpanningTree base T' ∧ T'.edges.length = T'.nodes.length - 1 ∧
      Connected T' ∧ IsForest T'.edges) ∧
    ∀ Tr, reject T' rec = some Tr → IsSpanningTree base Tr := by
  have h1 := propose_spanning hWFb hst hprop
  refine ⟨⟨h1, h1.2.2.2.2.2, h1.2.2.2.1, h1.2.2.2.2.1⟩, ?_⟩
  intro Tr hTr
  rcases reject_after_propose hWFb hst hprop with ⟨Tr0, hTr0, hN, _, hEq, hlen⟩
  rw [hTr0] at hTr
  rcases Option.some.inj hTr with rfl
  exact spanning_congr hst hN hEq hlen

/-- Witness for C1 on the triangle with spanning tree 0 - 1 - 2. -/
theorem claim_C1_witness :
    (IsSpanningTree triBase (⟨[0, 1, 2], [(1, 2), (0, 2)]⟩ : Graph) ∧
      (⟨[0, 1, 2], [(1, 2), (0, 2)]⟩ : Graph).edges.length =
        (⟨[0, 1, 2], [(1, 2), (0, 2)]⟩ : Graph).nodes.length - 1 ∧
      Connected (⟨[0, 1, 2], [(1, 2), (0, 2)]⟩ : Graph) ∧
      IsForest (⟨[0, 1, 2], [(1, 2), (0, 2)]⟩ : Graph).edges) ∧
    ∀ Tr, reject ⟨[0, 1, 2], [(1, 2), (0, 2)]⟩ ⟨0, 2, 0, 1, [0, 1, 2]⟩ =
      some Tr → IsSpanningTree triBase Tr :=
  claim_C1_tree_invariant (wf_of_b (by decide))
    (isSpanningTree_of_b (by decide))
    (show propose triBase pathT [2] 0 =
      some (⟨[0, 1, 2], [(1, 2), (0, 2)]⟩, ⟨0, 2, 0, 1, [0, 1, 2]⟩) by decide)

/-- C2: for every spanning tree and any draws used by `propose`,
executing `propose` and then `reject` restores the tree to exactly the
edge set (as an undirected multiset; equivalently every `has_edge`
query and the edge count agree) it had before the call. -/
theorem claim_C2_reversibility {base T : Graph} {draws : List ℕ} {i : ℕ}
    {T' : Graph} {rec : ProposalRecord}
    (hWFb : WF base) (hst : IsSpanningTree base T)
    (hprop : propose base T draws i = some (T', rec)) :
    ∃ Tr, reject T' rec = some Tr ∧ Tr.nodes = T.nodes ∧
      EdgeSetEq Tr.edges T.edges ∧
      (∀ x y, hasEdgeL Tr.edges x y = hasEdgeL T.edges x y) ∧
      Tr.edges.length = T.edges.length := by
  rcases reject_after_propose hWFb hst hprop with ⟨Tr, hTr, hN, _, hEq, hlen⟩
  exact ⟨Tr, hTr, hN, hEq, fun x y => hasEdgeL_congr hEq x y, hlen⟩

/-- Witness for C2 on the triangle. -/
theorem claim_C2_witness :
    ∃ Tr, reject ⟨[0, 1, 2], [(1, 2), (0, 2)]⟩ ⟨0, 2, 0, 1, [0, 1, 2]⟩ =
      some Tr ∧ Tr.nodes = pathT.nodes ∧ EdgeSetEq Tr.edges pathT.edges ∧
      (∀ x y, hasEdgeL Tr.edges x y = hasEdgeL pathT.edges x y) ∧
      Tr.edges.length = pathT.edges.length :=
  claim_C2_reversibility (wf_of_b (by decide))
    (isSpanningTree_of_b (by decide))
    (show propose triBase pathT [2] 0 =
      some (⟨[0, 1, 2], [(1, 2), (0, 2)]⟩, ⟨0, 2, 0, 1, [0, 1, 2]⟩) by decide)

/-- C3 (code bug in `ldst`): the body reads the closure variable `T`
instead of the `value` argument.  At the closure tree `twoK` (a single
edge, both ends of degree 1 ≥ d = 1) and the value `twoIso` (no edges,
no node of degree ≥ 1) the code returns `-beta * 2` where the claimed
pure function of the value returns `0`; indeed the code's result never
depends on `value` at all. -/
theorem claim_C3_ldst_closure_bug :
    ldstLogp twoK 1 1 twoIso = -2 ∧
    -(1 : ℚ) * (countDegGE twoIso 1 : ℚ) = 0 ∧
    ∀ value : Graph, ldstLogp twoK 1 1 value = ldstLogp twoK 1 1 twoIso := by
  refine ⟨?_, ?_, fun value => rfl⟩
  · rw [ldstLogp, show countDegGE twoK 1 = 2 from by decide]
    norm_num
  · rw [show countDegGE twoIso 1 = 0 from by decide]
    norm_num

/-- C4: whenever `propose` terminates, the candidate edge it selected
is an edge of the base graph absent from the tree, and it is the first
edge in the stream of uniform draws from the base graph's full edge
list that is not already a tree edge (rejection sampling, not a direct
draw from the complement). -/
theorem claim_C4_candidate_edge {base T : Graph} {draws : List ℕ} {i : ℕ}
    {T' : Graph} {rec : ProposalRecord}
    (hprop : propose base T draws i = some (T', rec)) :
    (rec.unew, rec.vnew) ∈ base.edges ∧
    T.hasEdge rec.unew rec.vnew = false ∧
    ∃ pre r post, draws = pre ++ r :: post ∧
      (∀ r' ∈ pre, ∃ e, base.edges.get? r' = some e ∧
        T.hasEdge e.1 e.2 = true) ∧
      base.edges.get? r = some (rec.unew, rec.vnew) := by
  rcases propose_new_edge_mem hprop with ⟨hmem, hnew⟩
  rcases propose_inv hprop with ⟨c0, hc0, hcnew, _, _, _, _, _⟩
  have hc0T : T.hasEdge c0.1 c0.2 = true := hasEdgeL_of_mem (head?_mem hc0)
  rcases chooseNewEdge_first hc0T hcnew with
    ⟨pre, r, post, hsplit, hpre, hr, _⟩
  exact ⟨hmem, hnew, pre, r, post, hsplit, hpre, hr⟩

/-- Witness for C4: the first draw hits the tree edge (0, 1) and is
rejected, the second draw yields (0, 2). -/
theorem claim_C4_witness :
    ((0 : ℕ), (2 : ℕ)) ∈ triBase.edges ∧
    pathT.hasEdge 0 2 = false ∧
    ∃ pre r post, [0, 2] = pre ++ r :: post ∧
      (∀ r' ∈ pre, ∃ e, triBase.edges.get? r' = some e ∧
        pathT.hasEdge e.1 e.2 = true) ∧
      triBase.edges.get? r = some (0, 2) :=
  claim_C4_candidate_edge
    (show propose triBase pathT [0, 2] 0 =
      some (⟨[0, 1, 2], [(1, 2), (0, 2)]⟩, ⟨0, 2, 0, 1, [0, 1, 2]⟩) by decide)

/-- C5: the removed edge is chosen on the path joining the candidate
edge's ends computed in the *current* tree (each consecutive path pair
is adjacent in `T`), the path runs from `u_new` to `v_new`, and the
removal index `i` ranges exactly over `[0, len(path) - 2]`: `propose`
removes `(path[i], path[i+1])`, a tree edge, succeeds for every index
in that range and fails beyond it. -/
theorem claim_C5_path_edge_removal {base T : Graph} {draws : List ℕ}
    {i : ℕ} {T' : Graph} {rec : ProposalRecord}
    (hprop : propose base T draws i = some (T', rec)) :
    List.Chain' (Adj T.edges) rec.path ∧
    rec.path.getD 0 0 = rec.unew ∧
    rec.path.getLast? = some rec.vnew ∧
    i + 1 < rec.path.length ∧
    rec.uold = rec.path.getD i 0 ∧ rec.vold = rec.path.getD (i + 1) 0 ∧
    T.hasEdge rec.uold rec.vold = true ∧
    (∀ j, j + 1 < rec.path.length →
      (propose base T draws j).isSome = true) ∧
    (∀ j, rec.path.length ≤ j + 1 → propose base T draws j = none) := by
  rcases propose_path_facts hprop with ⟨hchain, hnodup, hp0, hlast, hi,
    huold, hvold⟩
  rcases propose_inv hprop with ⟨c0, hc0, hcnew, hp, hgu, hgv, hhas, hT'⟩
  refine ⟨hchain, hp0, hlast, hi, huold, hvold, hhas, ?_, ?_⟩
  · intro j hj
    exact propose_isSome_of_index hc0 hcnew hp hj
  · intro j hj
    exact propose_none_of_index hc0 hcnew hp hj

/-- Witness for C5 on the triangle: the tree path from 0 to 2 is
`[0, 1, 2]`, the two indices 0 and 1 succeed, index 2 fails. -/
theorem claim_C5_witness :
    List.Chain' (Adj pathT.edges) [0, 1, 2] ∧
    ([0, 1, 2] : List ℕ).getD 0 0 = 0 ∧
    ([0, 1, 2] : List ℕ).getLast? = some 2 ∧
    0 + 1 < ([0, 1, 2] : List ℕ).length ∧
    (0 : ℕ) = ([0, 1, 2] : List ℕ).getD 0 0 ∧
    (1 : ℕ) = ([0, 1, 2] : List ℕ).getD (0 + 1) 0 ∧
    pathT.hasEdge 0 1 = true ∧
    (∀ j, j + 1 < ([0, 1, 2] : List ℕ).length →
      (propose triBase pathT [2] j).isSome = true) ∧
    (∀ j, ([0, 1, 2] : List ℕ).length ≤ j + 1 →
      propose triBase pathT [2] j = none) :=
  claim_C5_path_edge_removal
    (show propose triBase pathT [2] 0 =
      some (⟨[0, 1, 2], [(1, 2), (0, 2)]⟩, ⟨0, 2, 0, 1, [0, 1, 2]⟩) by decide)

/-- C6: for every (connected) tree value, root, depth bound and beta,
`bdst` equals `-beta` times the number of nodes whose shortest-path
length from the root strictly exceeds `k` (a walk-length of at most `k`
is impossible). -/
theorem claim_C6_bdst_energy {V : Graph} {root k : ℕ} {beta : ℚ}
    (hWF : WF V) (hroot : root ∈ V.nodes) (hconn : Connected V) :
    bdstLogp V root k beta =
      -beta *
        ((Set.ncard {v | v ∈ V.nodes ∧ SPLExceeds V.edges root v k} : ℚ)) := by
  rw [bdstLogp]
  congr 1
  rw [countDistGT]
  norm_cast
  have hL : ((reachList V.edges root).filter
      (fun v => !(v ∈ iterExpand V.edges [root] k : Bool))).Nodup :=
    reachList_nodup.filter _
  have hset : {v | v ∈ V.nodes ∧ SPLExceeds V.edges root v k} =
      ↑((reachList V.edges root).filter
        (fun v => !(v ∈ iterExpand V.edges [root] k : Bool))).toFinset := by
    ext v
    simp only [Set.mem_setOf_eq, Finset.coe_sort_coe, Finset.mem_coe,
      List.mem_toFinset, List.mem_filter, Bool.not_eq_true',
      decide_eq_false_iff_not]
    rw [mem_reachList_iff]
    constructor
    · rintro ⟨hv, hspl⟩
      refine ⟨hconn root hroot v hv, fun hball => ?_⟩
      rcases mem_ball_iff.mp hball with ⟨n, hn, hr⟩
      exact hspl n hn hr
    · rintro ⟨hreach, hball⟩
      exact ⟨reach_subset_nodes hWF hroot hreach,
        fun n hn hr => hball (mem_ball_iff.mpr ⟨n, hn, hr⟩)⟩
  rw [hset, Set.ncard_coe_Finset, List.toFinset_card_of_nodup hL]

/-- Witness for C6 on the path tree 0 - 1 - 2 with root 0, k = 1:
exactly node 2 lies deeper than 1, and the energy is -2 * 1. -/
theorem claim_C6_witness :
    bdstLogp pathT 0 1 2 =
      -2 *
        ((Set.ncard {v | v ∈ pathT.nodes ∧ SPLExceeds pathT.edges 0 v 1} : ℚ)) :=
  claim_C6_bdst_energy (wf_of_b (by decide)) (by decide)
    (connectedb_iff.mp (by decide))

/-- C7 (acceptance step; the step method itself lives in PyMC, not in
this repository, and is modelled from the spec): each iteration accepts
with probability `min(1, exp(delta))` against one uniform draw in
`[0, 1)`; in particular a proposal with `energy(candidate) >
energy(current)` is accepted for every such draw (probability 1), and a
rejected iteration restores the tree to the prior current value. -/
theorem claim_C7_acceptance {energy : Graph → ℚ} {base T : Graph}
    {draws : List ℕ} {i : ℕ} {T' : Graph} {rec : ProposalRecord} {u : ℝ}
    (hWFb : WF base) (hst : IsSpanningTree base T)
    (hprop : propose base T draws i = some (T', rec))
    (hu0 : 0 ≤ u) (hu1 : u < 1) :
    (energy T < energy T' →
      mhStep energy base T draws i u T' ∧
      ∀ result, mhStep energy base T draws i u result → result = T') ∧
    (∀ result, mhStep energy base T draws i u result →
      ¬ metropolisAccepts ((energy T' : ℝ) - (energy T : ℝ)) u →
      result.nodes = T.nodes ∧ EdgeSetEq result.edges T.edges ∧
      result.edges.length = T.edges.length) := by
  constructor
  · intro hlt
    have hcast : (energy T : ℝ) < (energy T' : ℝ) := by exact_mod_cast hlt
    have hdelta : (0 : ℝ) < (energy T' : ℝ) - (energy T : ℝ) := by linarith
    have hacc : metropolisAccepts ((energy T' : ℝ) - (energy T : ℝ)) u := by
      rw [metropolisAccepts,
        min_eq_left (le_of_lt (Real.one_lt_exp_iff.mpr hdelta))]
      exact hu1
    refine ⟨⟨T', rec, hprop, Or.inl ⟨hacc, rfl⟩⟩, ?_⟩
    intro result hms
    rcases hms with ⟨T'', rec'', hprop'', hbr⟩
    rw [hprop] at hprop''
    have heq := Option.some.inj hprop''
    rw [Prod.ext_iff] at heq
    obtain ⟨h1, h2⟩ := heq
    subst h1
    subst h2
    rcases hbr with ⟨_, rfl⟩ | ⟨hnacc, _⟩
    · rfl
    · exact absurd hacc hnacc
  · intro result hms hnacc
    rcases hms with ⟨T'', rec'', hprop'', hbr⟩
    rw [hprop] at hprop''
    have heq := Option.some.inj hprop''
    rw [Prod.ext_iff] at heq
    obtain ⟨h1, h2⟩ := heq
    subst h1
    subst h2
    rcases hbr with ⟨hacc, _⟩ | ⟨_, hrej⟩
    · exact absurd hacc hnacc
    · rcases reject_after_propose hWFb hst hprop with
        ⟨Tr0, hTr0, hN, _, hEq, hlen⟩
      rw [hTr0] at hrej
      rcases Option.some.inj hrej with rfl
      exact ⟨hN, hEq, hlen⟩

/-- Witness for C7 on the triangle, with the energy that counts copies
of the edge (0, 2) (0 on the current tree, 1 on the candidate) and the
uniform draw 1/2. -/
theorem claim_C7_witness :
    (exampleEnergy pathT <
        exampleEnergy (⟨[0, 1, 2], [(1, 2), (0, 2)]⟩ : Graph) →
      mhStep exampleEnergy triBase pathT [2] 0 ((1 : ℝ)/2)
        (⟨[0, 1, 2], [(1, 2), (0, 2)]⟩ : Graph) ∧
      ∀ result, mhStep exampleEnergy triBase pathT [2] 0 ((1 : ℝ)/2) result →
        result = (⟨[0, 1, 2], [(1, 2), (0, 2)]⟩ : Graph)) ∧
    (∀ result, mhStep exampleEnergy triBase pathT [2] 0 ((1 : ℝ)/2) result →
      ¬ metropolisAccepts
        ((exampleEnergy (⟨[0, 1, 2], [(1, 2), (0, 2)]⟩ : Graph) : ℝ) -
          (exampleEnergy pathT : ℝ)) ((1 : ℝ)/2) →
      result.nodes = pathT.nodes ∧ EdgeSetEq result.edges pathT.edges ∧
      result.edges.length = pathT.edges.length) :=
  claim_C7_acceptance (wf_of_b (by decide)) (isSpanningTree_of_b (by decide))
    (show propose triBase pathT [2] 0 =
      some (⟨[0, 1, 2], [(1, 2), (0, 2)]⟩, ⟨0, 2, 0, 1, [0, 1, 2]⟩) by decide)
    (by norm_num) (by norm_num)

/-- C8, counterexample to the claim as stated: neither `bdst` nor
`ldst` contains any tree check - called on the triangle (which has a
cycle, so is not a forest) they silently return scores, instead of
signalling an `InvariantViolationError` (no such error exists in the
code). -/
theorem claim_C8_counterexample :
    ¬ IsForest triBase.edges ∧
    bdstLogp triBase 0 0 1 = -2 ∧
    ldstLogp triBase 2 1 triBase = -3 := by
  refine ⟨tri_not_forest, ?_, ?_⟩
  · rw [bdstLogp, show countDistGT triBase 0 0 = 2 from by decide]
    norm_num
  · rw [ldstLogp, show countDegGE triBase 2 = 3 from by decide]
    norm_num

/-- C8, amended: the energy functions are total on arbitrary graph
values; on the non-forest triangle they return the documented formula
values for every beta, with no error path. -/
theorem claim_C8_amended :
    ¬ IsForest triBase.edges ∧
    ∀ beta : ℚ, bdstLogp triBase 0 0 beta = -beta * 2 ∧
      ldstLogp triBase 2 beta triBase = -beta * 3 := by
  refine ⟨tri_not_forest, fun beta => ⟨?_, ?_⟩⟩
  · rw [bdstLogp, show countDistGT triBase 0 0 = 2 from by decide]
    norm_num
  · rw [ldstLogp, show countDegGE triBase 2 = 3 from by decide]
    norm_num

/-- Witness for the amended C8 at beta = 5. -/
theorem claim_C8_amended_witness :
    ¬ IsForest triBase.edges ∧
    bdstLogp triBase 0 0 5 = -5 * 2 ∧ ldstLogp triBase 2 5 triBase = -5 * 3 :=
  ⟨claim_C8_amended.1, (claim_C8_amended.2 5).1, (claim_C8_amended.2 5).2⟩

/-- C9, counterexample to the claim as stated: `BDST` applied to a
disconnected base graph raises nothing - `nx.minimum_spanning_tree`
returns a spanning *forest* and the stochastic is built around it; the
initial value is not even connected. -/
theorem claim_C9_counterexample :
    ¬ Connected fourBase ∧
    BDST fourBase wOne 0 5 1 =
      ⟨⟨[0, 1, 2, 3], [(0, 1), (2, 3)]⟩, 0, 5, 1⟩ ∧
    ¬ Connected (BDST fourBase wOne 0 5 1).value := by
  refine ⟨?_, by decide, ?_⟩
  · intro h
    exact four_not_reach (h 0 (by decide) 2 (by decide))
  · intro h
    exact four_not_reach (h 0 (by decide) 2 (by decide))

/-- C9, amended: neither `BDST` nor `LDST` checks connectivity; on a
disconnected base graph they succeed and seed the sampler with a
minimum spanning forest, which is disconnected and has fewer than
`|nodes| - 1` edges. -/
theorem claim_C9_amended :
    LDST fourBase wOne 3 1 =
      ⟨⟨[0, 1, 2, 3], [(0, 1), (2, 3)]⟩, 0, 3, 1⟩ ∧
    ¬ Connected (LDST fourBase wOne 3 1).value ∧
    (LDST fourBase wOne 3 1).value.edges.length ≠
      (LDST fourBase wOne 3 1).value.nodes.length - 1 := by
  refine ⟨by decide, ?_, by decide⟩
  intro h
  exact four_not_reach (h 0 (by decide) 2 (by decide))

/-- C10: whenever `propose` terminates on a spanning tree, the removed
edge was in the pre-proposal tree and the added edge was not (so the
two are distinct unordered pairs); consequently each `remove_edge` call
in `propose` and in `reject` acts on an edge present at the moment of
the call, and the add/remove pair in `reject` cannot cancel. -/
theorem claim_C10_remove_edge_safety {base T : Graph} {draws : List ℕ}
    {i : ℕ} {T' : Graph} {rec : ProposalRecord}
    (hprop : propose base T draws i = some (T', rec)) :
    T.hasEdge rec.uold rec.vold = true ∧
    T.hasEdge rec.unew rec.vnew = false ∧
    uMatch (rec.uold, rec.vold) (rec.unew, rec.vnew) = false ∧
    (T'.addEdge rec.uold rec.vold).hasEdge rec.unew rec.vnew = true ∧
    (reject T' rec).isSome = true := by
  rcases propose_inv hprop with ⟨c0, hc0, hcnew, hp, hgu, hgv, hhas, hT'⟩
  rcases propose_result_edges hprop with ⟨hE, hnew⟩
  have hmold := propose_old_ne_new hprop
  have habsent := propose_old_absent hprop
  have hpres : (T'.addEdge rec.uold rec.vold).hasEdge rec.unew rec.vnew =
      true := by
    rw [addEdge_of_not_present habsent]
    show hasEdgeL (T'.edges ++ [(rec.uold, rec.vold)]) rec.unew rec.vnew = true
    rw [hE]
    refine List.any_eq_true.mpr ⟨(rec.unew, rec.vnew), ?_, uMatch_refl _⟩
    exact List.mem_append.mpr (Or.inl (List.mem_append.mpr
      (Or.inr (List.mem_singleton.mpr rfl))))
  refine ⟨hhas, hnew, hmold, hpres, ?_⟩
  rw [reject, Graph.removeEdge, if_pos hpres]
  rfl

/-- Witness for C10 on the triangle. -/
theorem claim_C10_witness :
    pathT.hasEdge 0 1 = true ∧
    pathT.hasEdge 0 2 = false ∧
    uMatch (0, 1) (0, 2) = false ∧
    ((⟨[0, 1, 2], [(1, 2), (0, 2)]⟩ : Graph).addEdge 0 1).hasEdge 0 2 = true ∧
    (reject ⟨[0, 1, 2], [(1, 2), (0, 2)]⟩ ⟨0, 2, 0, 1, [0, 1, 2]⟩).isSome =
      true :=
  claim_C10_remove_edge_safety
    (show propose triBase pathT [2] 0 =
      some (⟨[0, 1, 2], [(1, 2), (0, 2)]⟩, ⟨0, 2, 0, 1, [0, 1, 2]⟩) by decide)

end STModel
